import Mathlib

/-!
Verification of the tree-CRF core of the repository
(`supar/modules/treecrf.py` and `supar/utils/fn.py`).

Modelling conventions used throughout this file.

Exp-space embedding: the Python code stores log-potentials in its
dynamic-programming tables and combines them with `logsumexp` (for sums over
structures) and `+` (for products of potentials); the impossible value is
`-inf`.  We embed the tables through the bijection `x ↦ exp x` from
`ℝ ∪ {-inf}` onto the nonnegative reals: `logsumexp` becomes `+`, `+` becomes
`*`, `-inf` becomes `0`, and the log-space identity `0` becomes `1`.  Table
entries therefore live in a commutative semiring (instantiated at `ℚ` for
concrete evaluation), and a log-space statement `table = -inf` is rendered as
`table = 0`, `logZ = log n` as `Z = n`.  Since `exp` is injective, an equality
of log-space values holds iff the corresponding exp-space equality holds.

Tensors: a 2-D table of a single batch element is a function `ℕ → ℕ → R`
indexed exactly like the permuted tensors of `inside` (first index = first
axis after the permutation).  The batch dimension is modelled as a `List` of
per-sentence records, which is faithful because every batched operation of the
code acts on batch elements independently.

Autograd: marginal probabilities are `autograd.grad(logZ, scores)`.  We embed
reverse-mode differentiation of the (polynomial, in exp-space) partition
function exactly, by running the same generic inside code over the dual-number
semiring `DQ` (`a + b ε`, `ε ^ 2 = 0`).  The NaN-scrubbing hooks of the code
make the float gradient agree with this exact derivative (the hook zeroes the
`0 * NaN` contributions of weight-zero structures); the hook mechanism itself
is modelled separately with the `Fl` float type below.

The `stripe` utility of `supar/utils/fn.py` is modelled twice and the two
models are connected: `stripeF` is the pure indexing view used inside the
recurrences, and `stripeOp` is a storage-level model (explicit heap of
storages, strides, `as_strided`, `contiguous`) used for the aliasing claims.
-/

set_option maxRecDepth 10000

/- Batteries marks the `Rat` operations `@[irreducible]` so that the
compiled `@[extern]` code is preferred; restoring the default reducibility
lets `decide` evaluate closed rational computations during elaboration.
Reducibility attributes have no bearing on soundness: the kernel ignores
them, and every proof below still passes the kernel. -/
set_option allowUnsafeReducibility true in
attribute [semireducible] Rat.add Rat.mul Rat.div Rat.sub Rat.neg Rat.inv

namespace TreeCRF

/-! ## Storage-level tensor model for `stripe` (supar/utils/fn.py, lines 49-85)

A heap is a list of storages (flat buffers).  A `TView` is a tensor view:
a storage id, an absolute storage offset, strides and sizes for the first two
dimensions, and the total number `m` of elements of one trailing block
(`x[0, 0].numel()` in the code); trailing dimensions are contiguous in every
tensor `stripe` is applied to, so they are modelled as one contiguous block. -/

/-- A strided view of a storage: `sid` names the storage in the heap, `off` is
the absolute storage offset, `s0`, `s1` are the strides of the first two
dimensions, `n0`, `n1` their sizes, and `m` the (contiguous) number of
elements of one trailing block. -/
structure TView where
  sid : ℕ
  off : ℕ
  s0 : ℕ
  s1 : ℕ
  n0 : ℕ
  n1 : ℕ
  m : ℕ
deriving DecidableEq, Repr

/-- Read position `pos` of storage `sid` of heap `h`. -/
def readStore (h : List (List ℚ)) (sid pos : ℕ) : ℚ :=
  (h.getD sid []).getD pos 0

/-- Read element `(i, j)` (trailing position `t`) of the view `v`. -/
def readV (h : List (List ℚ)) (v : TView) (i j t : ℕ) : ℚ :=
  readStore h v.sid (v.off + i * v.s0 + j * v.s1 + t)

/-- Write `val` at element `(i, j)` (trailing position `t`) of view `v`:
the write goes to the storage that `v` points into. -/
def writeV (h : List (List ℚ)) (v : TView) (i j t : ℕ) (val : ℚ) :
    List (List ℚ) :=
  h.set v.sid ((h.getD v.sid []).set (v.off + i * v.s0 + j * v.s1 + t) val)

/-- Row-major contiguity of the first two dimensions (the trailing block is
contiguous by construction of the model). -/
def isContig (v : TView) : Bool :=
  decide (v.s0 = v.n1 * v.m ∧ v.s1 = v.m)

/-- The row-major flattening of the logical contents of `v`. -/
def flattenV (h : List (List ℚ)) (v : TView) : List ℚ :=
  (List.range (v.n0 * v.n1 * v.m)).map fun p =>
    readV h v (p / (v.n1 * v.m)) (p / v.m % v.n1) (p % v.m)

/-- `x.contiguous()`: the identity on a contiguous view, otherwise a copy of
the logical contents into a fresh row-major storage appended to the heap. -/
def contiguousOp (h : List (List ℚ)) (v : TView) : List (List ℚ) × TView :=
  if isContig v then (h, v)
  else (h ++ [flattenV h v],
    ⟨h.length, 0, v.n1 * v.m, v.m, v.n0, v.n1, v.m⟩)

/-- `stripe(x, n, w, (o0, o1), dim)` of fn.py: make `x` contiguous, then
return the `as_strided` view with `stride[0] = (seq_len + 1) * numel`,
`stride[1] = (1 if dim == 1 else seq_len) * numel` and absolute storage
offset `(o0 * seq_len + o1) * numel`, where `seq_len = x.size(1)`. -/
def stripeOp (h : List (List ℚ)) (v : TView) (n w o0 o1 dim : ℕ) :
    List (List ℚ) × TView :=
  let hx := contiguousOp h v
  (hx.1,
    ⟨hx.2.sid, (o0 * hx.2.n1 + o1) * hx.2.m, (hx.2.n1 + 1) * hx.2.m,
      (if dim = 1 then 1 else hx.2.n1) * hx.2.m, n, w, hx.2.m⟩)

/-! ## Functional view of `stripe` used by the recurrences

On a (contiguous, offset-0) table, `stripe` with offset `(o0, o1)` reads, at
stripe element `(k, c)`, the table element `(o0 + k, o1 + k + c)` when
`dim = 1` and `(o0 + k + c, o1 + k)` when `dim = 0`; this is proved against
the storage model in the stripe lemmas below. -/

/-- Pure diagonal-stripe indexing: element `(k, c)` of
`stripe(t, n, w, (o0, o1), dim)`. -/
def stripeF {R : Type} (t : ℕ → ℕ → R) (o0 o1 dim : ℕ) (k c : ℕ) : R :=
  if dim = 1 then t (o0 + k) (o1 + k + c) else t (o0 + k + c) (o1 + k)

/-! ## Dynamic-programming infrastructure shared by the three components -/

/-- The pair of tables of the first-order dependency inside pass
(`s_i` incomplete spans, `s_c` complete spans), in exp-space. -/
structure DPState (R : Type) where
  si : ℕ → ℕ → R
  sc : ℕ → ℕ → R

/-- `t.diagonal(-w).copy_(v)` restricted to the first `n` entries: write
`v k` at position `(k + w, k)` for `k < n`. -/
def writeLo {R : Type} (t : ℕ → ℕ → R) (w n : ℕ) (v : ℕ → R) : ℕ → ℕ → R :=
  fun r c => if r = c + w ∧ c < n then v c else t r c

/-- `t.diagonal(w).copy_(v)` restricted to the first `n` entries: write
`v k` at position `(k, k + w)` for `k < n`. -/
def writeUp {R : Type} (t : ℕ → ℕ → R) (w n : ℕ) (v : ℕ → R) : ℕ → ℕ → R :=
  fun r c => if c = r + w ∧ r < n then v r else t r c

/-- The number of `true` positions of a mask row, `mask.sum(1)` of the code. -/
def maskLen (mask : ℕ → Bool) (seqLen : ℕ) : ℕ :=
  ((List.range seqLen).filter fun i => mask i).length

/-- `mask.index_fill(1, 0, 1)`: position 0 is forced valid. -/
def maskFill (mask : ℕ → Bool) : ℕ → Bool :=
  fun i => if i = 0 then true else mask i

/-- `cands.index_fill(1, 0, -1)`: position 0 is forced unconstrained. -/
def candFill (cands : ℕ → ℤ) : ℕ → ℤ :=
  fun i => if i = 0 then -1 else cands i

/-- Candidate restriction of the (permuted) arc scores, treecrf.py lines
52-59: an arc with head `hd` and dependent `d` keeps its score iff `d`'s
candidate is `hd` or is negative (unconstrained), and both endpoints are
valid under the position-0-filled mask; all other arcs get `-inf` (here 0). -/
def candScore {R : Type} [CommSemiring R] (esc : ℕ → ℕ → R)
    (mask : ℕ → Bool) (cands : ℕ → ℤ) : ℕ → ℕ → R :=
  fun hd d =>
    if (candFill cands d = (hd : ℤ) ∨ candFill cands d < 0)
        ∧ maskFill mask d = true ∧ maskFill mask hd = true
    then esc hd d else 0

/-! ## First-order dependency CRF inside pass (treecrf.py, lines 42-92)

The permuted score table `esc` satisfies `esc hd d = scores[b, d, hd]`
(head `hd`, dependent `d`).  One loop iteration at width `w`, in exp-space:
`ilr[k, c] = stripe(s_c, n, w)[k, c] * stripe(s_c, n, w, (w, 1))[k, c]`,
both `s_i` diagonals receive `(sum of ilr) * arc score`, then the lower and
upper `s_c` diagonals receive the `cl` and `cr` sums, and finally the root
cell `s_c[0, w]` is forced to 0 unless `w` equals the sentence length. -/

/-- The `s_i` table after one width-`w` iteration of the first-order loop:
both diagonals are filled with `logsumexp(ilr) + arc score` (exp-space:
sum and product). -/
def depSiNew {R : Type} [CommSemiring R] (esc : ℕ → ℕ → R) (L : ℕ)
    (st : DPState R) (w : ℕ) : ℕ → ℕ → R :=
  writeUp
    (writeLo st.si w (L - w) fun k =>
      (∑ c in Finset.range w,
        stripeF st.sc 0 0 1 k c * stripeF st.sc w 1 1 k c) * esc (k + w) k)
    w (L - w) fun k =>
      (∑ c in Finset.range w,
        stripeF st.sc 0 0 1 k c * stripeF st.sc w 1 1 k c) * esc k (k + w)

/-- The `s_c` table after the lower-diagonal write of a width-`w` iteration:
`cl[k, c] = stripe(s_c, n, w, (0, 0), 0)[k, c] * stripe(s_i, n, w, (w, 0))[k, c]`
where `s_i` is the already-updated table. -/
def depScLo {R : Type} [CommSemiring R] (esc : ℕ → ℕ → R) (L : ℕ)
    (st : DPState R) (w : ℕ) : ℕ → ℕ → R :=
  writeLo st.sc w (L - w) fun k =>
    ∑ c in Finset.range w,
      stripeF st.sc 0 0 0 k c * stripeF (depSiNew esc L st w) w 0 1 k c

/-- The `s_c` table at the end of a width-`w` iteration: the upper diagonal
receives the `cr` sums (`cr[k, c] = stripe(s_i, n, w, (0, 1))[k, c] *
stripe(s_c, n, w, (1, w), 0)[k, c]`, reading the updated `s_i` and the
lower-updated `s_c`), and then `s_c[0, w]` is forced to `-inf` (here 0)
whenever the sentence length differs from `w`
("disable multi words to modify the root"). -/
def depScNew {R : Type} [CommSemiring R] (esc : ℕ → ℕ → R) (len L : ℕ)
    (st : DPState R) (w : ℕ) : ℕ → ℕ → R :=
  fun r c =>
    if r = 0 ∧ c = w ∧ len ≠ w then 0
    else
      writeUp (depScLo esc L st w) w (L - w)
        (fun k => ∑ c in Finset.range w,
          stripeF (depSiNew esc L st w) 0 1 1 k c *
            stripeF (depScLo esc L st w) 1 w 0 k c) r c

/-- One width-`w` iteration of `CRFDependency.inside`. -/
def depStep {R : Type} [CommSemiring R] (esc : ℕ → ℕ → R) (len L : ℕ)
    (st : DPState R) (w : ℕ) : DPState R :=
  ⟨depSiNew esc L st w, depScNew esc len L st w⟩

/-- The tables before the loop: `s_i` is all `-inf` (0), `s_c` is all `-inf`
except the main diagonal, which is 0 in log-space (1 here). -/
def depInit (R : Type) [CommSemiring R] : DPState R :=
  ⟨fun _ _ => 0, fun r c => if r = c then 1 else 0⟩

/-- The tables after the whole loop `for w in range(1, seq_len)`. -/
def depInsideTables {R : Type} [CommSemiring R] (esc : ℕ → ℕ → R)
    (len L : ℕ) : DPState R :=
  (List.range' 1 (L - 1)).foldl (depStep esc len L) (depInit R)

/-- `CRFDependency.inside(scores, mask, cands)`: the sentence length is the
mask count, and a present candidate tensor first restricts the arc scores. -/
def depInsideM {R : Type} [CommSemiring R] (esc : ℕ → ℕ → R)
    (mask : ℕ → Bool) (cands : Option (ℕ → ℤ)) (L : ℕ) : DPState R :=
  match cands with
  | none => depInsideTables esc (maskLen mask L) L
  | some cd => depInsideTables (candScore esc mask cd) (maskLen mask L) L

/-! ## Second-order dependency CRF inside pass (treecrf.py, lines 136-214)

Permuted tables: `esc hd d = s_arc[b, d, hd]` and
`essib hd d s = s_sib[b, d, hd, s]` (head `hd`, dependent `d`, prior sibling
`s`).  A width-`w` iteration computes, in this order: the lower `s_i`
diagonal from `il` (inner sibling terms, with the last stripe column
overwritten by the first-child boundary term `C(j, j) * C(i, j-1)`, which is
forced to the log-space zero, exp-space 1, at span start 0); the upper `s_i`
diagonal from `ir` (inner sibling terms with row 0 forced to `-inf`, then
stripe column 0 overwritten by the boundary term `C(i, i) * C(j, i+1)` for
every row); both `s_s` diagonals from the shared `slr` sums; the two `s_c`
diagonals exactly as in the first-order pass; and the root cell mask. -/

/-- The three tables of the second-order inside pass. -/
structure DP2State (R : Type) where
  si : ℕ → ℕ → R
  ss : ℕ → ℕ → R
  sc : ℕ → ℕ → R

/-- The stripe entry `(k, c)` of the `il` tensor after its in-place edits
(lines 167-173): inner term
`stripe(s_i,n,w,(w,1)) * stripe(s_s,n,w,(1,0),0) * sibling score`, with the
last column replaced by the boundary term
`stripe(s_c,n,1,(w,w)) * stripe(s_c,n,1,(0,w-1))`, whose value at span
index 0 is first replaced by log-space zero (`index_fill_(0, 0, 0)`). -/
def o2IlVal {R : Type} [CommSemiring R] (essib : ℕ → ℕ → ℕ → R)
    (st : DP2State R) (w k c : ℕ) : R :=
  if c = w - 1 then
    (if k = 0 then 1 else stripeF st.sc w w 1 k 0 * stripeF st.sc 0 (w - 1) 1 k 0)
  else
    stripeF st.si w 1 1 k c * stripeF st.ss 1 0 0 k c *
      essib (k + w) k (k + 1 + c)

/-- The stripe entry `(k, c)` of the `ir` tensor after its in-place edits
(lines 182-187): inner term
`stripe(s_i,n,w) * stripe(s_s,n,w,(0,w),0) * sibling score`, with row 0
first forced to `-inf` (`ir[0] = -inf`) and then column 0 overwritten for
every row by the boundary term `stripe(s_c,n,1) * stripe(s_c,n,1,(w,1))`. -/
def o2IrVal {R : Type} [CommSemiring R] (essib : ℕ → ℕ → ℕ → R)
    (st : DP2State R) (w k c : ℕ) : R :=
  if c = 0 then stripeF st.sc 0 0 1 k 0 * stripeF st.sc w 1 1 k 0
  else if k = 0 then 0
  else
    stripeF st.si 0 0 1 k c * stripeF st.ss 0 w 0 k c *
      essib k (k + w) (k + c)

/-- The `s_i` table after a width-`w` iteration of the second-order loop. -/
def o2SiNew {R : Type} [CommSemiring R] (esc : ℕ → ℕ → R)
    (essib : ℕ → ℕ → ℕ → R) (L : ℕ) (st : DP2State R) (w : ℕ) :
    ℕ → ℕ → R :=
  writeUp
    (writeLo st.si w (L - w) fun k =>
      (∑ c in Finset.range w, o2IlVal essib st w k c) * esc (k + w) k)
    w (L - w) fun k =>
      (∑ c in Finset.range w, o2IrVal essib st w k c) * esc k (k + w)

/-- The `s_s` table after a width-`w` iteration: both diagonals receive the
same `slr` sums (lines 194-201). -/
def o2SsNew {R : Type} [CommSemiring R] (L : ℕ) (st : DP2State R) (w : ℕ) :
    ℕ → ℕ → R :=
  writeUp
    (writeLo st.ss w (L - w) fun k =>
      ∑ c in Finset.range w, stripeF st.sc 0 0 1 k c * stripeF st.sc w 1 1 k c)
    w (L - w) fun k =>
      ∑ c in Finset.range w, stripeF st.sc 0 0 1 k c * stripeF st.sc w 1 1 k c

/-- The `s_c` table after the lower-diagonal (`cl`) write, reading the
updated `s_i` table (lines 204-206). -/
def o2ScLo {R : Type} [CommSemiring R] (esc : ℕ → ℕ → R)
    (essib : ℕ → ℕ → ℕ → R) (L : ℕ) (st : DP2State R) (w : ℕ) :
    ℕ → ℕ → R :=
  writeLo st.sc w (L - w) fun k =>
    ∑ c in Finset.range w,
      stripeF st.sc 0 0 0 k c * stripeF (o2SiNew esc essib L st w) w 0 1 k c

/-- The `s_c` table at the end of a width-`w` iteration: the `cr` write
(lines 208-210) followed by the root mask (line 212). -/
def o2ScNew {R : Type} [CommSemiring R] (esc : ℕ → ℕ → R)
    (essib : ℕ → ℕ → ℕ → R) (len L : ℕ) (st : DP2State R) (w : ℕ) :
    ℕ → ℕ → R :=
  fun r c =>
    if r = 0 ∧ c = w ∧ len ≠ w then 0
    else
      writeUp (o2ScLo esc essib L st w) w (L - w)
        (fun k => ∑ c in Finset.range w,
          stripeF (o2SiNew esc essib L st w) 0 1 1 k c *
            stripeF (o2ScLo esc essib L st w) 1 w 0 k c) r c

/-- One width-`w` iteration of `CRF2oDependency.inside`. -/
def o2Step {R : Type} [CommSemiring R] (esc : ℕ → ℕ → R)
    (essib : ℕ → ℕ → ℕ → R) (len L : ℕ) (st : DP2State R) (w : ℕ) :
    DP2State R :=
  ⟨o2SiNew esc essib L st w, o2SsNew L st w, o2ScNew esc essib len L st w⟩

/-- The tables before the second-order loop. -/
def o2Init (R : Type) [CommSemiring R] : DP2State R :=
  ⟨fun _ _ => 0, fun _ _ => 0, fun r c => if r = c then 1 else 0⟩

/-- The tables after the whole second-order loop. -/
def o2InsideTables {R : Type} [CommSemiring R] (esc : ℕ → ℕ → R)
    (essib : ℕ → ℕ → ℕ → R) (len L : ℕ) : DP2State R :=
  (List.range' 1 (L - 1)).foldl (o2Step esc essib len L) (o2Init R)

/-- `CRF2oDependency.inside(scores, mask, cands)`; a present candidate
tensor restricts the arc scores exactly as in the first-order pass. -/
def o2InsideM {R : Type} [CommSemiring R] (esc : ℕ → ℕ → R)
    (essib : ℕ → ℕ → ℕ → R) (mask : ℕ → Bool) (cands : Option (ℕ → ℤ))
    (L : ℕ) : DP2State R :=
  match cands with
  | none => o2InsideTables esc essib (maskLen mask L) L
  | some cd =>
      o2InsideTables (candScore esc mask cd) essib (maskLen mask L) L

/-! ## Constituency CRF inside pass (treecrf.py, lines 243-266)

The permuted chart satisfies `escC i j = scores[b, i, j]` (span `(i, j)`).
Width 1 copies the scores onto the first diagonal; width `w > 1` fills the
`w`-th diagonal with
`logsumexp(stripe(s,n,w-1,(0,1)) + stripe(s,n,w-1,(1,w),0)) + score`. -/

/-- One width-`w` iteration of `CRFConstituency.inside`. -/
def consStep {R : Type} [CommSemiring R] (escC : ℕ → ℕ → R) (L : ℕ)
    (st : ℕ → ℕ → R) (w : ℕ) : ℕ → ℕ → R :=
  if w = 1 then writeUp st 1 (L - 1) fun k => escC k (k + 1)
  else
    writeUp st w (L - w) fun k =>
      (∑ c in Finset.range (w - 1),
        stripeF st 0 1 1 k c * stripeF st 1 w 0 k c) * escC k (k + w)

/-- The chart after the whole constituency loop (initially all `-inf`). -/
def consInsideTable {R : Type} [CommSemiring R] (escC : ℕ → ℕ → R)
    (L : ℕ) : ℕ → ℕ → R :=
  (List.range' 1 (L - 1)).foldl (consStep escC L) fun _ _ => 0

/-! ## Dual numbers: exact embedding of `autograd.grad`

`autograd.grad(logZ, scores)[b, d, hd] = d logZ / d scores[b, d, hd]`.  In
exp-space, with `e = exp score`, this equals `(e * dZ/de) / Z`.  Running the
(polynomial) inside pass over the dual numbers `a + b ε`, `ε ^ 2 = 0`, with
the dual part seeded as `e` at the differentiated entry, computes
`(Z, e * dZ/de)` exactly; the NaN-scrubbing hooks of the code make the float
gradient agree with this exact derivative at `-inf` potentials. -/

/-- Dual numbers over `ℚ`: value and derivative part. -/
structure DQ where
  va : ℚ
  dv : ℚ
deriving DecidableEq, Repr

theorem DQ.ext2 {a b : DQ} (h1 : a.va = b.va) (h2 : a.dv = b.dv) : a = b := by
  cases a; cases b; cases h1; cases h2; rfl

/-- Dual-number addition: componentwise. -/
def DQ.add (a b : DQ) : DQ := ⟨a.va + b.va, a.dv + b.dv⟩

/-- Dual-number multiplication: `(a + a' ε) * (b + b' ε) = ab + (ab' + a'b) ε`. -/
def DQ.mul (a b : DQ) : DQ := ⟨a.va * b.va, a.va * b.dv + a.dv * b.va⟩

instance : Add DQ := ⟨DQ.add⟩
instance : Mul DQ := ⟨DQ.mul⟩
instance : Zero DQ := ⟨⟨0, 0⟩⟩
instance : One DQ := ⟨⟨1, 0⟩⟩

@[simp] theorem DQ.add_va (a b : DQ) : (a + b).va = a.va + b.va := rfl
@[simp] theorem DQ.add_dv (a b : DQ) : (a + b).dv = a.dv + b.dv := rfl
@[simp] theorem DQ.mul_va (a b : DQ) : (a * b).va = a.va * b.va := rfl
@[simp] theorem DQ.mul_dv (a b : DQ) :
    (a * b).dv = a.va * b.dv + a.dv * b.va := rfl
@[simp] theorem DQ.zero_va : (0 : DQ).va = 0 := rfl
@[simp] theorem DQ.zero_dv : (0 : DQ).dv = 0 := rfl
@[simp] theorem DQ.one_va : (1 : DQ).va = 1 := rfl
@[simp] theorem DQ.one_dv : (1 : DQ).dv = 0 := rfl

instance : CommSemiring DQ where
  add_assoc a b c := DQ.ext2 (by simp [add_assoc]) (by simp [add_assoc])
  add_comm a b := DQ.ext2 (by simp [add_comm]) (by simp [add_comm])
  zero_add a := DQ.ext2 (by simp) (by simp)
  add_zero a := DQ.ext2 (by simp) (by simp)
  mul_assoc a b c := DQ.ext2 (by simp [mul_assoc]) (by simp; ring)
  one_mul a := DQ.ext2 (by simp) (by simp)
  mul_one a := DQ.ext2 (by simp) (by simp)
  left_distrib a b c := DQ.ext2 (by simp [left_distrib]) (by simp; ring)
  right_distrib a b c := DQ.ext2 (by simp [right_distrib]) (by simp; ring)
  zero_mul a := DQ.ext2 (by simp) (by simp)
  mul_zero a := DQ.ext2 (by simp) (by simp)
  mul_comm a b := DQ.ext2 (by simp [mul_comm]) (by simp; ring)
  nsmul := nsmulRec
  npow := npowRec

/-- Seed the arc-score table for differentiation at the permuted entry
`(hd, d)`: dual part `esc hd d` there, 0 elsewhere. -/
def seedArc (esc : ℕ → ℕ → ℚ) (hd d : ℕ) : ℕ → ℕ → DQ :=
  fun r c => ⟨esc r c, if r = hd ∧ c = d then esc r c else 0⟩

/-- The first-order marginal probability `probs[b, d, hd]` returned by
`autograd.grad(logZ, scores)` for one sentence: the exact derivative of
`logZ` at the arc (head `hd`, dependent `d`), computed with dual numbers.
`ℚ` division makes `0 / 0 = 0`, which is exactly the NaN-to-zero hook
semantics for weight-zero partitions. -/
def margDep (esc : ℕ → ℕ → ℚ) (mask : ℕ → Bool) (L hd d : ℕ) : ℚ :=
  let F := depInsideM (seedArc esc hd d) mask none L
  (F.sc 0 (maskLen mask L)).dv / (F.sc 0 (maskLen mask L)).va

/-! ## Specification-side enumeration of dependency trees over 3 words

Used for the end-to-end example of claim C9.  A structure over words
1, 2, 3 with a virtual root 0 is given by head indices `h1, h2, h3`; it is a
valid single-root projective dependency tree iff each head is in range and
not the word itself, exactly one word is headed by the root, every word
reaches the root (acyclicity), and no two arcs cross (projectivity; with the
root at the left boundary, noncrossing coincides with projectivity). -/

/-- The head of word `d` under the assignment `(h1, h2, h3)`. -/
def headOf (t : ℕ × ℕ × ℕ) (d : ℕ) : ℕ :=
  if d = 1 then t.1 else if d = 2 then t.2.1 else if d = 3 then t.2.2 else 4

/-- Two dependency arcs, each given by its two endpoints, cross. -/
def arcsCross (a b c d : ℕ) : Bool :=
  (min a b < min c d && min c d < max a b && max a b < max c d) ||
  (min c d < min a b && min a b < max c d && max c d < max a b)

/-- Validity of a head assignment over 3 words as a single-root projective
dependency tree. -/
def isTree3 (t : ℕ × ℕ × ℕ) : Bool :=
  let h1 := t.1
  let h2 := t.2.1
  let h3 := t.2.2
  (h1 ≤ 3 && h2 ≤ 3 && h3 ≤ 3) &&
  (h1 ≠ 1 && h2 ≠ 2 && h3 ≠ 3) &&
  ([h1, h2, h3].count 0 = 1) &&
  ([1, 2, 3].all fun d =>
    headOf t d = 0 || headOf t (headOf t d) = 0 ||
      headOf t (headOf t (headOf t d)) = 0) &&
  (!arcsCross h1 1 h2 2 && !arcsCross h1 1 h3 3 && !arcsCross h2 2 h3 3)

/-- All valid single-root projective trees over 3 words. -/
def trees3 : List (ℕ × ℕ × ℕ) :=
  ((List.range 4).flatMap fun a =>
    (List.range 4).flatMap fun b =>
      (List.range 4).map fun c => (a, b, c)).filter isTree3

/-- The number of valid trees over 3 words. -/
def tree3Count : ℕ := trees3.length

/-- The number of valid trees over 3 words containing the arc with head `hd`
and dependent `d`. -/
def arc3Count (hd d : ℕ) : ℕ :=
  (trees3.filter fun t => headOf t d = hd).length

/-! ## Forward entry points (exp-space)

A batch is a list of per-sentence records.  The loss
`(logZ - score.sum()) / total` of each forward method is represented by the
triple `(Zexp, goldExp, total)` with `Zexp = exp logZ` (a product over the
batch, since `logZ` is a sum over the batch) and `goldExp = exp goldScore`:
the triple determines the loss as `(log Zexp - log goldExp) / total`, and
two losses agree iff their triples do (for positive weights). -/

/-- One sentence of a first-order dependency batch: permuted scores
(`esc hd d = scores[b, d, hd]`), mask row, and the gold parent index per
position (`-1` = unannotated, used by the partial mode). -/
structure DepSent where
  esc : ℕ → ℕ → ℚ
  mask : ℕ → Bool
  tgt : ℕ → ℤ

/-- `lens = mask.sum(1)` for one sentence. -/
def sentLen (L : ℕ) (s : DepSent) : ℕ := maskLen s.mask L

/-- `logZ = s_c[0].gather(0, lens.unsqueeze(0)).sum()` in exp-space:
the product over the batch of the per-sentence partition values. -/
def depLogZExp (L : ℕ) (batch : List DepSent) : ℚ :=
  (batch.map fun s =>
    (depInsideM s.esc s.mask none L).sc 0 (sentLen L s)).prod

/-- Full-supervision gold score,
`scores.gather(-1, target.unsqueeze(-1)).squeeze(-1)[mask]` then `.sum()`,
in exp-space: for each sentence, the product over the mask-selected
positions of the score at the gold parent index. -/
def depGoldFullExp (L : ℕ) (batch : List DepSent) : ℚ :=
  (batch.map fun s =>
    (((List.range L).filter fun d => s.mask d).map fun d =>
      s.esc (Int.toNat (s.tgt d)) d).prod).prod

/-- Partial-supervision gold score: the logZ of a second inside pass with
`cands = target`, gathered and summed like `logZ`, in exp-space. -/
def depGoldCandExp (L : ℕ) (batch : List DepSent) : ℚ :=
  (batch.map fun s =>
    (depInsideM s.esc s.mask (some s.tgt) L).sc 0 (sentLen L s)).prod

/-- `total = mask.sum()`: the count of valid positions of the whole batch. -/
def depTotal (L : ℕ) (batch : List DepSent) : ℕ :=
  (batch.map (sentLen L)).sum

/-- The loss `(logZ - score.sum()) / total` of `CRFDependency.forward`,
represented by the triple `(Zexp, goldExp, total)`. -/
def depLossParts (L : ℕ) (batch : List DepSent) (restricted : Bool) :
    ℚ × ℚ × ℕ :=
  (depLogZExp L batch,
    if restricted then depGoldCandExp L batch else depGoldFullExp L batch,
    depTotal L batch)

/-- The probabilities returned by `CRFDependency.forward`:
the raw scores, or the marginals `autograd.grad(logZ, scores)` when the
marginal (`mbr`) flag is set; `probs[b, d, hd]`. -/
def depProbs (L : ℕ) (batch : List DepSent) (mbr : Bool) :
    ℕ → ℕ → ℕ → ℚ :=
  fun b d hd =>
    let s := batch.getD b ⟨fun _ _ => 0, fun _ => false, fun _ => 0⟩
    if mbr then margDep s.esc s.mask L hd d else s.esc hd d

/-- `CRFDependency.forward`: probabilities alone when no target is given,
the pair (loss, probabilities) otherwise. -/
def depForward (L : ℕ) (batch : List DepSent)
    (targetGiven mbr restricted : Bool) :
    Sum (ℕ → ℕ → ℕ → ℚ) ((ℚ × ℚ × ℕ) × (ℕ → ℕ → ℕ → ℚ)) :=
  if targetGiven then
    Sum.inr (depLossParts L batch restricted, depProbs L batch mbr)
  else Sum.inl (depProbs L batch mbr)

/-- One sentence of a second-order dependency batch: permuted arc scores,
permuted sibling scores (`essib hd d s = s_sib[b, d, hd, s]`), mask row,
gold parent and gold sibling indices. -/
structure Sent2o where
  esc : ℕ → ℕ → ℚ
  essib : ℕ → ℕ → ℕ → ℚ
  mask : ℕ → Bool
  tgtArc : ℕ → ℤ
  tgtSib : ℕ → ℤ

/-- `lens = mask.sum(1)` for one second-order sentence. -/
def sentLen2 (L : ℕ) (s : Sent2o) : ℕ := maskLen s.mask L

/-- Second-order `logZ` in exp-space. -/
def o2LogZExp (L : ℕ) (batch : List Sent2o) : ℚ :=
  (batch.map fun s =>
    (o2InsideM s.esc s.essib s.mask none L).sc 0 (sentLen2 L s)).prod

/-- Second-order full-supervision gold score (treecrf.py lines 125-131):
arc scores at the gold parent per valid position, and sibling scores at the
gold (parent, sibling) pair for the positions whose gold sibling index is
positive. -/
def o2GoldFullExp (L : ℕ) (batch : List Sent2o) : ℚ :=
  (batch.map fun s =>
    (((List.range L).filter fun d => s.mask d).map fun d =>
      s.esc (Int.toNat (s.tgtArc d)) d).prod *
    (((List.range L).filter fun d => s.mask d && s.tgtSib d > 0).map fun d =>
      s.essib (Int.toNat (s.tgtArc d)) d (Int.toNat (s.tgtSib d))).prod).prod

/-- Second-order partial-supervision gold score: logZ of the inside pass
with `cands = arcs`. -/
def o2GoldCandExp (L : ℕ) (batch : List Sent2o) : ℚ :=
  (batch.map fun s =>
    (o2InsideM s.esc s.essib s.mask (some s.tgtArc) L).sc 0
      (sentLen2 L s)).prod

/-- `total = mask.sum()` of a second-order batch. -/
def o2Total (L : ℕ) (batch : List Sent2o) : ℕ :=
  (batch.map (sentLen2 L)).sum

/-- The loss triple of `CRF2oDependency.forward`. -/
def o2LossParts (L : ℕ) (batch : List Sent2o) (restricted : Bool) :
    ℚ × ℚ × ℕ :=
  (o2LogZExp L batch,
    if restricted then o2GoldCandExp L batch else o2GoldFullExp L batch,
    o2Total L batch)

/-- The second-order marginal `autograd.grad(logZ, s_arc)[b, d, hd]` for one
sentence: exact dual-number derivative with the dual part seeded at the arc
score only (the sibling scores are not differentiated). -/
def margO2 (esc : ℕ → ℕ → ℚ) (essib : ℕ → ℕ → ℕ → ℚ) (mask : ℕ → Bool)
    (L hd d : ℕ) : ℚ :=
  let F := o2InsideM (seedArc esc hd d) (fun a b c => ⟨essib a b c, 0⟩)
    mask none L
  (F.sc 0 (maskLen mask L)).dv / (F.sc 0 (maskLen mask L)).va

/-- The probabilities returned by `CRF2oDependency.forward` (with respect to
the arc scores). -/
def o2Probs (L : ℕ) (batch : List Sent2o) (mbr : Bool) :
    ℕ → ℕ → ℕ → ℚ :=
  fun b d hd =>
    let s := batch.getD b
      ⟨fun _ _ => 0, fun _ _ _ => 0, fun _ => false, fun _ => 0, fun _ => 0⟩
    if mbr then margO2 s.esc s.essib s.mask L hd d else s.esc hd d

/-- `CRF2oDependency.forward`. -/
def o2Forward (L : ℕ) (batch : List Sent2o)
    (targetGiven mbr restricted : Bool) :
    Sum (ℕ → ℕ → ℕ → ℚ) ((ℚ × ℚ × ℕ) × (ℕ → ℕ → ℕ → ℚ)) :=
  if targetGiven then
    Sum.inr (o2LossParts L batch restricted, o2Probs L batch mbr)
  else Sum.inl (o2Probs L batch mbr)

/-- One sentence of a constituency batch: chart scores
(`escC i j = scores[b, i, j]`), pairwise span mask and boolean span target. -/
structure ConsSent where
  esc : ℕ → ℕ → ℚ
  mask : ℕ → ℕ → Bool
  tgt : ℕ → ℕ → Bool

/-- `lens = mask[:, 0].sum(-1)`: the number of `true` entries of the first
mask row. -/
def consRow0Len (L : ℕ) (s : ConsSent) : ℕ :=
  ((List.range L).filter fun j => s.mask 0 j).length

/-- Constituency `logZ = s[0].gather(0, lens.unsqueeze(0)).sum()` in
exp-space. -/
def consLogZExp (L : ℕ) (batch : List ConsSent) : ℚ :=
  (batch.map fun s => consInsideTable s.esc L 0 (consRow0Len L s)).prod

/-- Constituency gold score `scores[mask & target].sum()` in exp-space. -/
def consGoldExp (L : ℕ) (batch : List ConsSent) : ℚ :=
  (batch.map fun s =>
    ((((List.range L).flatMap fun i => (List.range L).map fun j => (i, j)).filter
      fun p => s.mask p.1 p.2 && s.tgt p.1 p.2).map fun p =>
        s.esc p.1 p.2).prod).prod

/-- `total = lens.sum()` of a constituency batch (counted from the first
mask rows, not the whole mask). -/
def consTotal (L : ℕ) (batch : List ConsSent) : ℕ :=
  (batch.map (consRow0Len L)).sum

/-- The loss triple of `CRFConstituency.forward` (no partial mode exists). -/
def consLossParts (L : ℕ) (batch : List ConsSent) : ℚ × ℚ × ℕ :=
  (consLogZExp L batch, consGoldExp L batch, consTotal L batch)

/-- Seed the constituency chart scores for differentiation at span
`(i, j)`. -/
def seedSpan (esc : ℕ → ℕ → ℚ) (i j : ℕ) : ℕ → ℕ → DQ :=
  fun r c => ⟨esc r c, if r = i ∧ c = j then esc r c else 0⟩

/-- The constituency marginal `autograd.grad(logZ, scores)[b, i, j]` for one
sentence. -/
def margCons (esc : ℕ → ℕ → ℚ) (L len i j : ℕ) : ℚ :=
  let F := consInsideTable (seedSpan esc i j) L
  (F 0 len).dv / (F 0 len).va

/-- The probabilities returned by `CRFConstituency.forward`. -/
def consProbs (L : ℕ) (batch : List ConsSent) (mbr : Bool) :
    ℕ → ℕ → ℕ → ℚ :=
  fun b i j =>
    let s := batch.getD b ⟨fun _ _ => 0, fun _ _ => false, fun _ _ => false⟩
    if mbr then margCons s.esc L (consRow0Len L s) i j else s.esc i j

/-- `CRFConstituency.forward`. -/
def consForward (L : ℕ) (batch : List ConsSent) (targetGiven mbr : Bool) :
    Sum (ℕ → ℕ → ℕ → ℚ) ((ℚ × ℚ × ℕ) × (ℕ → ℕ → ℕ → ℚ)) :=
  if targetGiven then
    Sum.inr (consLossParts L batch, consProbs L batch mbr)
  else Sum.inl (consProbs L batch mbr)

/-! ## Interface data of the three `forward` methods

Transcribed from the `def forward` lines of treecrf.py (the bound-method
parameters after `self`); `mbr` is the marginal-computation flag. -/

/-- Parameters of `CRFDependency.forward` (line 15). -/
def depForwardParams : List String :=
  ["scores", "mask", "target", "mbr", "partial"]

/-- Parameters of `CRF2oDependency.forward` (line 101). -/
def o2ForwardParams : List String :=
  ["scores", "mask", "target", "mbr", "partial"]

/-- Parameters of `CRFConstituency.forward` (line 223). -/
def consForwardParams : List String :=
  ["scores", "mask", "target", "mbr"]

/-- Default of `mbr` in `CRFDependency.forward` (line 15): `False`. -/
def depMbrDefault : Bool := false

/-- Default of `mbr` in `CRF2oDependency.forward` (line 101): `True`. -/
def o2MbrDefault : Bool := true

/-- Default of `mbr` in `CRFConstituency.forward` (line 223): `False`. -/
def consMbrDefault : Bool := false

/-! ## Float model of the log-sum-exp reductions and their hooks

`Fl` models the IEEE float values relevant to the reductions of the inside
passes: NaN, the two infinities, and finite values.  The finite-argument
exponential and logarithm are abstract parameters (`e`, `l`): every property
proved below holds for all of them, so nothing depends on their float
realization.  `lseFwd` is `logsumexp` as torch computes it (max-shifted),
`lseBwd` its backward map `grad * exp(x - logsumexp x)`, and `scrubHook`
the registered hook `x.masked_fill_(torch.isnan(x), 0)`. -/

/-- Float values: NaN, positive and negative infinity, finite. -/
inductive Fl where
  | nan : Fl
  | pinf : Fl
  | ninf : Fl
  | fin : ℚ → Fl
deriving DecidableEq, Repr

/-- IEEE subtraction on `Fl`: NaN propagates, `(-inf) - (-inf)` and
`inf - inf` are NaN. -/
def flSub : Fl → Fl → Fl
  | .nan, _ => .nan
  | _, .nan => .nan
  | .ninf, .ninf => .nan
  | .pinf, .pinf => .nan
  | .ninf, _ => .ninf
  | .pinf, _ => .pinf
  | .fin _, .pinf => .ninf
  | .fin _, .ninf => .pinf
  | .fin a, .fin b => .fin (a - b)

/-- IEEE multiplication on `Fl`: NaN propagates (also `0 * NaN = NaN`),
infinity times zero is NaN. -/
def flMul : Fl → Fl → Fl
  | .nan, _ => .nan
  | _, .nan => .nan
  | .pinf, .pinf => .pinf
  | .pinf, .ninf => .ninf
  | .ninf, .pinf => .ninf
  | .ninf, .ninf => .pinf
  | .pinf, .fin b => if 0 < b then .pinf else if b < 0 then .ninf else .nan
  | .ninf, .fin b => if 0 < b then .ninf else if b < 0 then .pinf else .nan
  | .fin a, .pinf => if 0 < a then .pinf else if a < 0 then .ninf else .nan
  | .fin a, .ninf => if 0 < a then .ninf else if a < 0 then .pinf else .nan
  | .fin a, .fin b => .fin (a * b)

/-- The exponential on `Fl`, with `e` the finite-argument exponential:
`exp (-inf) = 0`, NaN propagates. -/
def flExp (e : ℚ → ℚ) : Fl → Fl
  | .nan => .nan
  | .pinf => .pinf
  | .ninf => .fin 0
  | .fin q => .fin (e q)

/-- Maximum of two `Fl` values, NaN propagating (as torch `amax`). -/
def flMax2 : Fl → Fl → Fl
  | .nan, _ => .nan
  | _, .nan => .nan
  | .pinf, _ => .pinf
  | _, .pinf => .pinf
  | .ninf, x => x
  | x, .ninf => x
  | .fin a, .fin b => .fin (max a b)

/-- The finite part of an `Fl` value (0 otherwise); used only where every
value is known finite. -/
def finPart : Fl → ℚ
  | .fin q => q
  | _ => 0

/-- `logsumexp` as torch computes it: shift by the maximum; an all-`-inf`
row has maximum `-inf` and the result is `-inf`, with no exception raised
(`lseFwd` is a total function).  `l` is the finite-argument logarithm. -/
def lseFwd (e l : ℚ → ℚ) (xs : List Fl) : Fl :=
  match xs.foldr flMax2 Fl.ninf with
  | .nan => .nan
  | .pinf => .pinf
  | .ninf => .ninf
  | .fin m =>
      .fin (m + l ((xs.map fun x => finPart (flExp e (flSub x (.fin m)))).sum))

/-- The backward map of `logsumexp`: the incoming gradient times
`exp(x - logsumexp x)` per entry.  On an all-`-inf` row this is
`g * exp(-inf - (-inf)) = g * NaN = NaN` for every `g`, zero included. -/
def lseBwd (e l : ℚ → ℚ) (g : Fl) (xs : List Fl) : List Fl :=
  xs.map fun x => flMul g (flExp e (flSub x (lseFwd e l xs)))

/-- The registered gradient hook `x.masked_fill_(torch.isnan(x), 0)`. -/
def scrubHook (xs : List Fl) : List Fl :=
  xs.map fun x => if x = .nan then .fin 0 else x

/-- Hook presence at the differentiable reductions of
`CRFDependency.inside`, in code order: `ilr` (line 70), `cl` (line 83),
`cr` (line 87). -/
def depInsideHooked : List Bool := [true, true, true]

/-- Hook presence at the differentiable reductions of
`CRF2oDependency.inside`: `il` (line 175), `ir` (line 189), `slr`
(line 196), `cl` (line 205), `cr` (line 209). -/
def o2InsideHooked : List Bool := [true, true, true, true, true]

/-- Hook presence at the differentiable reduction of
`CRFConstituency.inside`: `s_s` (line 262). -/
def consInsideHooked : List Bool := [true]

/-! ## Concrete inputs used by witnesses and counterexamples -/

/-- All-one exp-space scores: the embedding of all-zero log scores. -/
def unitScore : ℕ → ℕ → ℚ := fun _ _ => 1

/-- All-one exp-space sibling scores. -/
def unitSib : ℕ → ℕ → ℕ → ℚ := fun _ _ _ => 1

/-- The mask of one sentence of 2 words at positions 1, 2 (position 0 is
the root). -/
def maskTwo : ℕ → Bool := fun i => decide (i = 1 ∨ i = 2)

/-- The mask of one sentence of 3 words at positions 1, 2, 3. -/
def maskThree : ℕ → Bool := fun i => decide (i = 1 ∨ i = 2 ∨ i = 3)

/-- A concrete constituency sentence over 3 leaves: unit scores, the mask
validating positions 0-2 of the first row, the whole-span target. -/
def consSentEx : ConsSent :=
  ⟨unitScore, fun i j => decide (i = 0 ∧ (j = 0 ∨ j = 1 ∨ j = 2)),
    fun i j => decide (i = 0 ∧ j = 3)⟩

/-- A concrete dependency sentence of 2 words with gold heads 0 and 1. -/
def depSentEx : DepSent :=
  ⟨unitScore, maskTwo, fun d => if d = 1 then 0 else if d = 2 then 1 else -1⟩

/-- A concrete non-contiguous tensor view: strides `(1, 2)` over a length-4
storage, a transposed 2 x 2 matrix. -/
def ncView : TView := ⟨0, 0, 1, 2, 2, 2, 1⟩

/-- The heap holding the storage of `ncView`. -/
def ncHeap : List (List ℚ) := [[0, 1, 2, 3]]

/-- A concrete contiguous 2 x 2 view over the same storage contents. -/
def cgView : TView := ⟨0, 0, 2, 1, 2, 2, 1⟩

/-! ## Evaluation lemmas for the diagonal writers -/

theorem writeLo_eq {R : Type} (t : ℕ → ℕ → R) (w n : ℕ) (v : ℕ → R)
    {r c : ℕ} (h1 : r = c + w) (h2 : c < n) : writeLo t w n v r c = v c := by
  simp [writeLo, h1, h2]

theorem writeLo_ne {R : Type} (t : ℕ → ℕ → R) (w n : ℕ) (v : ℕ → R)
    {r c : ℕ} (h : ¬(r = c + w ∧ c < n)) : writeLo t w n v r c = t r c := by
  simp only [writeLo, if_neg h]

theorem writeUp_eq {R : Type} (t : ℕ → ℕ → R) (w n : ℕ) (v : ℕ → R)
    {r c : ℕ} (h1 : c = r + w) (h2 : r < n) : writeUp t w n v r c = v r := by
  simp [writeUp, h1, h2]

theorem writeUp_ne {R : Type} (t : ℕ → ℕ → R) (w n : ℕ) (v : ℕ → R)
    {r c : ℕ} (h : ¬(c = r + w ∧ r < n)) : writeUp t w n v r c = t r c := by
  simp only [writeUp, if_neg h]

/-- Splitting the width loop `for w in range(1, seq_len)` at an iteration
`w` of its range. -/
theorem range1_split (L w : ℕ) (h1 : 1 ≤ w) (h2 : w ≤ L - 1) :
    List.range' 1 (L - 1) =
      List.range' 1 (w - 1) ++ w :: List.range' (w + 1) (L - 1 - w) := by
  have e2 : 1 + (w - 1) = w := by omega
  have h := List.range'_append_1 1 (w - 1) (L - w)
  rw [e2, show (L - w) + (w - 1) = L - 1 by omega] at h
  rw [← h]
  congr 1
  rw [show L - w = (L - 1 - w) + 1 by omega, List.range'_succ]

/-! ## Loop-invariant lemmas: first-order dependency inside pass -/

/-- A width-`w` iteration only writes table cells at diagonal distance `w`. -/
theorem depStep_frame {R : Type} [CommSemiring R] (esc : ℕ → ℕ → R)
    (len L : ℕ) (st : DPState R) (w r c : ℕ)
    (h1 : r ≠ c + w) (h2 : c ≠ r + w) :
    (depStep esc len L st w).si r c = st.si r c ∧
      (depStep esc len L st w).sc r c = st.sc r c := by
  refine ⟨?_, ?_⟩
  · show depSiNew esc L st w r c = st.si r c
    unfold depSiNew
    rw [writeUp_ne _ _ _ _ fun h => h2 h.1, writeLo_ne _ _ _ _ fun h => h1 h.1]
  · show depScNew esc len L st w r c = st.sc r c
    unfold depScNew
    rw [if_neg fun h => h2 (by omega), writeUp_ne _ _ _ _ fun h => h2 h.1]
    unfold depScLo
    rw [writeLo_ne _ _ _ _ fun h => h1 h.1]

/-- Folding iterations none of which touches the cell `(r, c)` leaves it
unchanged. -/
theorem dep_fold_frame {R : Type} [CommSemiring R] (esc : ℕ → ℕ → R)
    (len L : ℕ) (r c : ℕ) :
    ∀ (l : List ℕ) (st : DPState R),
      (∀ w' ∈ l, r ≠ c + w' ∧ c ≠ r + w') →
      (l.foldl (depStep esc len L) st).si r c = st.si r c ∧
        (l.foldl (depStep esc len L) st).sc r c = st.sc r c
  | [], _, _ => ⟨rfl, rfl⟩
  | w' :: tl, st, h => by
      rw [List.foldl_cons]
      have hw := h w' (List.mem_cons_self _ _)
      have ih := dep_fold_frame esc len L r c tl (depStep esc len L st w')
        fun x hx => h x (List.mem_cons_of_mem _ hx)
      have hf := depStep_frame esc len L st w' r c hw.1 hw.2
      exact ⟨ih.1.trans hf.1, ih.2.trans hf.2⟩

/-- The state reached just before iteration `w` of the first-order loop. -/
def depPrefix {R : Type} [CommSemiring R] (esc : ℕ → ℕ → R) (len L w : ℕ) :
    DPState R :=
  (List.range' 1 (w - 1)).foldl (depStep esc len L) (depInit R)

/-- The final tables are the remaining iterations applied to the state after
iteration `w`. -/
theorem dep_split {R : Type} [CommSemiring R] (esc : ℕ → ℕ → R)
    (len L w : ℕ) (h1 : 1 ≤ w) (h2 : w ≤ L - 1) :
    depInsideTables esc len L =
      (List.range' (w + 1) (L - 1 - w)).foldl (depStep esc len L)
        (depStep esc len L (depPrefix esc len L w) w) := by
  unfold depInsideTables depPrefix
  rw [range1_split L w h1 h2, List.foldl_append, List.foldl_cons]

/-- Cells whose diagonal distance is below `w` already hold their final
values before iteration `w`. -/
theorem dep_prefix_final {R : Type} [CommSemiring R] (esc : ℕ → ℕ → R)
    (len L w : ℕ) (h1 : 1 ≤ w) (h2 : w ≤ L - 1) (r c : ℕ)
    (h : ∀ w', w ≤ w' → r ≠ c + w' ∧ c ≠ r + w') :
    (depPrefix esc len L w).si r c = (depInsideTables esc len L).si r c ∧
      (depPrefix esc len L w).sc r c = (depInsideTables esc len L).sc r c := by
  rw [dep_split esc len L w h1 h2]
  have hstep := depStep_frame esc len L (depPrefix esc len L w) w r c
    (h w le_rfl).1 (h w le_rfl).2
  have htail := dep_fold_frame esc len L r c
    (List.range' (w + 1) (L - 1 - w)) (depStep esc len L (depPrefix esc len L w) w)
    fun w' hw' => h w' (by rw [List.mem_range'_1] at hw'; omega)
  exact ⟨(htail.1.trans hstep.1).symm, (htail.2.trans hstep.2).symm⟩

/-- Cells at diagonal distance exactly `w` hold, in the final tables, the
values written by iteration `w`. -/
theorem dep_final_at {R : Type} [CommSemiring R] (esc : ℕ → ℕ → R)
    (len L w : ℕ) (h1 : 1 ≤ w) (h2 : w ≤ L - 1) (r c : ℕ)
    (h : r = c + w ∨ c = r + w) :
    (depInsideTables esc len L).si r c =
      (depStep esc len L (depPrefix esc len L w) w).si r c ∧
      (depInsideTables esc len L).sc r c =
        (depStep esc len L (depPrefix esc len L w) w).sc r c := by
  rw [dep_split esc len L w h1 h2]
  exact dep_fold_frame esc len L r c _ _
    fun w' hw' => by rw [List.mem_range'_1] at hw'; omega

/-- Cells untouched by the iterations after `w` hold, in the final tables,
their values after iteration `w`. -/
theorem dep_tail_eq {R : Type} [CommSemiring R] (esc : ℕ → ℕ → R)
    (len L w : ℕ) (h1 : 1 ≤ w) (h2 : w ≤ L - 1) (r c : ℕ)
    (h : ∀ w', w + 1 ≤ w' → r ≠ c + w' ∧ c ≠ r + w') :
    (depInsideTables esc len L).si r c =
      (depStep esc len L (depPrefix esc len L w) w).si r c ∧
      (depInsideTables esc len L).sc r c =
        (depStep esc len L (depPrefix esc len L w) w).sc r c := by
  rw [dep_split esc len L w h1 h2]
  exact dep_fold_frame esc len L r c _ _
    fun w' hw' => h w' (by rw [List.mem_range'_1] at hw'; omega)

@[simp] theorem stripeF_dim1 {R : Type} (t : ℕ → ℕ → R) (o0 o1 k c : ℕ) :
    stripeF t o0 o1 1 k c = t (o0 + k) (o1 + k + c) := by
  simp [stripeF]

@[simp] theorem stripeF_dim0 {R : Type} (t : ℕ → ℕ → R) (o0 o1 k c : ℕ) :
    stripeF t o0 o1 0 k c = t (o0 + k + c) (o1 + k) := by
  simp [stripeF]

/-- Diagonal cells are never rewritten by the loop: `s_c` keeps the
empty-span identity and `s_i` keeps `-inf` on the main diagonal. -/
theorem dep_diag {R : Type} [CommSemiring R] (esc : ℕ → ℕ → R)
    (len L i : ℕ) :
    (depInsideTables esc len L).sc i i = 1 ∧
      (depInsideTables esc len L).si i i = 0 := by
  have h := dep_fold_frame esc len L i i (List.range' 1 (L - 1)) (depInit R)
    fun w' hw' => by rw [List.mem_range'_1] at hw'; omega
  refine ⟨h.2.trans ?_, h.1.trans rfl⟩
  simp [depInit]

/-- Final-table recurrence of the lower incomplete spans:
`I(j, i) = logsumexp over r in [i, j) of C(i, r) + C(j, r+1), + score`,
in exp-space. -/
theorem dep_si_lo_eq {R : Type} [CommSemiring R] (esc : ℕ → ℕ → R)
    (len L w k : ℕ) (hw : 1 ≤ w) (hk : k + w < L) :
    (depInsideTables esc len L).si (k + w) k =
      (∑ c in Finset.range w,
        (depInsideTables esc len L).sc k (k + c) *
          (depInsideTables esc len L).sc (k + w) (k + 1 + c)) *
        esc (k + w) k := by
  have h2 : w ≤ L - 1 := by omega
  rw [(dep_tail_eq esc len L w hw h2 (k + w) k
    fun w' hw' => by constructor <;> omega).1]
  show depSiNew esc L (depPrefix esc len L w) w (k + w) k = _
  unfold depSiNew
  rw [writeUp_ne _ _ _ _ fun h => absurd h.1 (by omega),
    writeLo_eq _ _ _ _ rfl (by omega)]
  congr 1
  refine Finset.sum_congr rfl fun c hc => ?_
  rw [Finset.mem_range] at hc
  simp only [stripeF_dim1, Nat.zero_add]
  rw [(dep_prefix_final esc len L w hw h2 k (k + c)
    fun w' hw' => by constructor <;> omega).2,
    (dep_prefix_final esc len L w hw h2 (w + k) (1 + k + c)
    fun w' hw' => by constructor <;> omega).2,
    Nat.add_comm w k, Nat.add_comm 1 k]

/-- Final-table recurrence of the upper incomplete spans (same sums,
other arc score). -/
theorem dep_si_up_eq {R : Type} [CommSemiring R] (esc : ℕ → ℕ → R)
    (len L w k : ℕ) (hw : 1 ≤ w) (hk : k + w < L) :
    (depInsideTables esc len L).si k (k + w) =
      (∑ c in Finset.range w,
        (depInsideTables esc len L).sc k (k + c) *
          (depInsideTables esc len L).sc (k + w) (k + 1 + c)) *
        esc k (k + w) := by
  have h2 : w ≤ L - 1 := by omega
  rw [(dep_tail_eq esc len L w hw h2 k (k + w)
    fun w' hw' => by constructor <;> omega).1]
  show depSiNew esc L (depPrefix esc len L w) w k (k + w) = _
  unfold depSiNew
  rw [writeUp_eq _ _ _ _ rfl (by omega)]
  congr 1
  refine Finset.sum_congr rfl fun c hc => ?_
  rw [Finset.mem_range] at hc
  simp only [stripeF_dim1, Nat.zero_add]
  rw [(dep_prefix_final esc len L w hw h2 k (k + c)
    fun w' hw' => by constructor <;> omega).2,
    (dep_prefix_final esc len L w hw h2 (w + k) (1 + k + c)
    fun w' hw' => by constructor <;> omega).2,
    Nat.add_comm w k, Nat.add_comm 1 k]

/-- Final-table recurrence of the lower complete spans:
`C(j, i) = logsumexp over r in [i, j) of C(r, i) + I(j, r)`, in exp-space. -/
theorem dep_sc_lo_eq {R : Type} [CommSemiring R] (esc : ℕ → ℕ → R)
    (len L w k : ℕ) (hw : 1 ≤ w) (hk : k + w < L) :
    (depInsideTables esc len L).sc (k + w) k =
      ∑ c in Finset.range w,
        (depInsideTables esc len L).sc (k + c) k *
          (depInsideTables esc len L).si (k + w) (k + c) := by
  have h2 : w ≤ L - 1 := by omega
  rw [(dep_tail_eq esc len L w hw h2 (k + w) k
    fun w' hw' => by constructor <;> omega).2]
  show depScNew esc len L (depPrefix esc len L w) w (k + w) k = _
  unfold depScNew
  rw [if_neg fun h => absurd h.1 (by omega),
    writeUp_ne _ _ _ _ fun h => absurd h.1 (by omega)]
  unfold depScLo
  rw [writeLo_eq _ _ _ _ rfl (by omega)]
  refine Finset.sum_congr rfl fun c hc => ?_
  rw [Finset.mem_range] at hc
  simp only [stripeF_dim1, stripeF_dim0, Nat.zero_add]
  have hb : depSiNew esc L (depPrefix esc len L w) w (w + k) (k + c) =
      (depInsideTables esc len L).si (w + k) (k + c) :=
    ((dep_tail_eq esc len L w hw h2 (w + k) (k + c)
      fun w' hw' => by constructor <;> omega).1).symm
  rw [(dep_prefix_final esc len L w hw h2 (k + c) k
    fun w' hw' => by constructor <;> omega).2, hb, Nat.add_comm w k]

/-- Final-table recurrence of the upper complete spans: the root exception
forces `s_c[0, w]` to `-inf` (0 here) when `w` is not the sentence length,
and every other upper cell holds
`C(i, j) = logsumexp over r in (i, j] of I(i, r) + C(r, j)`, in exp-space. -/
theorem dep_sc_up_eq {R : Type} [CommSemiring R] (esc : ℕ → ℕ → R)
    (len L w k : ℕ) (hw : 1 ≤ w) (hk : k + w < L) :
    (depInsideTables esc len L).sc k (k + w) =
      if k = 0 ∧ len ≠ w then 0
      else
        ∑ c in Finset.range w,
          (depInsideTables esc len L).si k (k + 1 + c) *
            (depInsideTables esc len L).sc (k + 1 + c) (k + w) := by
  have h2 : w ≤ L - 1 := by omega
  rw [(dep_tail_eq esc len L w hw h2 k (k + w)
    fun w' hw' => by constructor <;> omega).2]
  show depScNew esc len L (depPrefix esc len L w) w k (k + w) = _
  unfold depScNew
  by_cases hk0 : k = 0 ∧ len ≠ w
  · rw [if_pos ⟨hk0.1, by rw [hk0.1, Nat.zero_add], hk0.2⟩, if_pos hk0]
  · rw [if_neg fun h => hk0 ⟨h.1, h.2.2⟩, if_neg hk0,
      writeUp_eq _ _ _ _ rfl (by omega)]
    refine Finset.sum_congr rfl fun c hc => ?_
    rw [Finset.mem_range] at hc
    simp only [stripeF_dim1, stripeF_dim0, Nat.zero_add]
    have hb : depSiNew esc L (depPrefix esc len L w) w k (1 + k + c) =
        (depInsideTables esc len L).si k (1 + k + c) :=
      ((dep_tail_eq esc len L w hw h2 k (1 + k + c)
        fun w' hw' => by constructor <;> omega).1).symm
    rw [hb]
    unfold depScLo
    rw [writeLo_ne _ _ _ _ fun h => absurd h.1 (by omega),
      (dep_prefix_final esc len L w hw h2 (1 + k + c) (w + k)
      fun w' hw' => by constructor <;> omega).2,
      Nat.add_comm w k, Nat.add_comm 1 k]

/-- Root exclusivity of the first-order pass: iteration `w` forces
`s_c[0, w]` to `-inf` (0) whenever the sentence length is not `w`, and no
later iteration rewrites the cell. -/
theorem dep_sc_root {R : Type} [CommSemiring R] (esc : ℕ → ℕ → R)
    (len L w : ℕ) (h1 : 1 ≤ w) (h2 : w ≤ L - 1) (hne : len ≠ w) :
    (depInsideTables esc len L).sc 0 w = 0 := by
  rw [(dep_tail_eq esc len L w h1 h2 0 w
    fun w' hw' => by constructor <;> omega).2]
  show depScNew esc len L (depPrefix esc len L w) w 0 w = 0
  unfold depScNew
  rw [if_pos ⟨rfl, rfl, hne⟩]

/-! ## Loop-invariant lemmas: second-order dependency inside pass -/

/-- A width-`w` iteration of the second-order loop only writes cells at
diagonal distance `w` (in all three tables). -/
theorem o2Step_frame {R : Type} [CommSemiring R] (esc : ℕ → ℕ → R)
    (essib : ℕ → ℕ → ℕ → R) (len L : ℕ) (st : DP2State R) (w r c : ℕ)
    (h1 : r ≠ c + w) (h2 : c ≠ r + w) :
    (o2Step esc essib len L st w).si r c = st.si r c ∧
      (o2Step esc essib len L st w).ss r c = st.ss r c ∧
      (o2Step esc essib len L st w).sc r c = st.sc r c := by
  refine ⟨?_, ?_, ?_⟩
  · show o2SiNew esc essib L st w r c = st.si r c
    unfold o2SiNew
    rw [writeUp_ne _ _ _ _ fun h => h2 h.1, writeLo_ne _ _ _ _ fun h => h1 h.1]
  · show o2SsNew L st w r c = st.ss r c
    unfold o2SsNew
    rw [writeUp_ne _ _ _ _ fun h => h2 h.1, writeLo_ne _ _ _ _ fun h => h1 h.1]
  · show o2ScNew esc essib len L st w r c = st.sc r c
    unfold o2ScNew
    rw [if_neg fun h => h2 (by omega), writeUp_ne _ _ _ _ fun h => h2 h.1]
    unfold o2ScLo
    rw [writeLo_ne _ _ _ _ fun h => h1 h.1]

/-- Folding second-order iterations none of which touches `(r, c)` leaves
the cell unchanged in all three tables. -/
theorem o2_fold_frame {R : Type} [CommSemiring R] (esc : ℕ → ℕ → R)
    (essib : ℕ → ℕ → ℕ → R) (len L : ℕ) (r c : ℕ) :
    ∀ (l : List ℕ) (st : DP2State R),
      (∀ w' ∈ l, r ≠ c + w' ∧ c ≠ r + w') →
      (l.foldl (o2Step esc essib len L) st).si r c = st.si r c ∧
        (l.foldl (o2Step esc essib len L) st).ss r c = st.ss r c ∧
        (l.foldl (o2Step esc essib len L) st).sc r c = st.sc r c
  | [], _, _ => ⟨rfl, rfl, rfl⟩
  | w' :: tl, st, h => by
      rw [List.foldl_cons]
      have hw := h w' (List.mem_cons_self _ _)
      have ih := o2_fold_frame esc essib len L r c tl (o2Step esc essib len L st w')
        fun x hx => h x (List.mem_cons_of_mem _ hx)
      have hf := o2Step_frame esc essib len L st w' r c hw.1 hw.2
      exact ⟨ih.1.trans hf.1, ih.2.1.trans hf.2.1, ih.2.2.trans hf.2.2⟩

/-- The second-order state just before iteration `w`. -/
def o2Prefix {R : Type} [CommSemiring R] (esc : ℕ → ℕ → R)
    (essib : ℕ → ℕ → ℕ → R) (len L w : ℕ) : DP2State R :=
  (List.range' 1 (w - 1)).foldl (o2Step esc essib len L) (o2Init R)

/-- Splitting the second-order loop at iteration `w`. -/
theorem o2_split {R : Type} [CommSemiring R] (esc : ℕ → ℕ → R)
    (essib : ℕ → ℕ → ℕ → R) (len L w : ℕ) (h1 : 1 ≤ w) (h2 : w ≤ L - 1) :
    o2InsideTables esc essib len L =
      (List.range' (w + 1) (L - 1 - w)).foldl (o2Step esc essib len L)
        (o2Step esc essib len L (o2Prefix esc essib len L w) w) := by
  unfold o2InsideTables o2Prefix
  rw [range1_split L w h1 h2, List.foldl_append, List.foldl_cons]

/-- Cells at diagonal distance below `w` hold their final values before
iteration `w` of the second-order loop. -/
theorem o2_prefix_final {R : Type} [CommSemiring R] (esc : ℕ → ℕ → R)
    (essib : ℕ → ℕ → ℕ → R) (len L w : ℕ) (h1 : 1 ≤ w) (h2 : w ≤ L - 1)
    (r c : ℕ) (h : ∀ w', w ≤ w' → r ≠ c + w' ∧ c ≠ r + w') :
    (o2Prefix esc essib len L w).si r c =
      (o2InsideTables esc essib len L).si r c ∧
      (o2Prefix esc essib len L w).ss r c =
        (o2InsideTables esc essib len L).ss r c ∧
      (o2Prefix esc essib len L w).sc r c =
        (o2InsideTables esc essib len L).sc r c := by
  rw [o2_split esc essib len L w h1 h2]
  have hstep := o2Step_frame esc essib len L (o2Prefix esc essib len L w) w r c
    (h w le_rfl).1 (h w le_rfl).2
  have htail := o2_fold_frame esc essib len L r c
    (List.range' (w + 1) (L - 1 - w))
    (o2Step esc essib len L (o2Prefix esc essib len L w) w)
    fun w' hw' => h w' (by rw [List.mem_range'_1] at hw'; omega)
  exact ⟨(htail.1.trans hstep.1).symm, (htail.2.1.trans hstep.2.1).symm,
    (htail.2.2.trans hstep.2.2).symm⟩

/-- Cells untouched by the iterations after `w` hold, in the final tables,
their values after iteration `w` of the second-order loop. -/
theorem o2_tail_eq {R : Type} [CommSemiring R] (esc : ℕ → ℕ → R)
    (essib : ℕ → ℕ → ℕ → R) (len L w : ℕ) (h1 : 1 ≤ w) (h2 : w ≤ L - 1)
    (r c : ℕ) (h : ∀ w', w + 1 ≤ w' → r ≠ c + w' ∧ c ≠ r + w') :
    (o2InsideTables esc essib len L).si r c =
      (o2Step esc essib len L (o2Prefix esc essib len L w) w).si r c ∧
      (o2InsideTables esc essib len L).ss r c =
        (o2Step esc essib len L (o2Prefix esc essib len L w) w).ss r c ∧
      (o2InsideTables esc essib len L).sc r c =
        (o2Step esc essib len L (o2Prefix esc essib len L w) w).sc r c := by
  rw [o2_split esc essib len L w h1 h2]
  exact o2_fold_frame esc essib len L r c _ _
    fun w' hw' => h w' (by rw [List.mem_range'_1] at hw'; omega)

/-- Root exclusivity of the second-order pass: iteration `w` forces
`s_c[0, w]` to `-inf` (0) whenever the sentence length is not `w`, and no
later iteration rewrites the cell. -/
theorem o2_sc_root {R : Type} [CommSemiring R] (esc : ℕ → ℕ → R)
    (essib : ℕ → ℕ → ℕ → R) (len L w : ℕ) (h1 : 1 ≤ w) (h2 : w ≤ L - 1)
    (hne : len ≠ w) : (o2InsideTables esc essib len L).sc 0 w = 0 := by
  rw [(o2_tail_eq esc essib len L w h1 h2 0 w
    fun w' hw' => by constructor <;> omega).2.2]
  show o2ScNew esc essib len L (o2Prefix esc essib len L w) w 0 w = 0
  unfold o2ScNew
  rw [if_pos ⟨rfl, rfl, hne⟩]

/-- Final-table recurrence of the lower incomplete spans of the
second-order pass: inner sibling terms `I(j, r) + S(r, i) + sib(j, i, r)`
over `r` strictly inside the span, plus the first-child boundary term
`C(j, j) + C(i, j-1)`, which at span start 0 is the log-space zero
(exp-space 1) instead. -/
theorem o2_si_lo_eq {R : Type} [CommSemiring R] (esc : ℕ → ℕ → R)
    (essib : ℕ → ℕ → ℕ → R) (len L w k : ℕ) (hw : 1 ≤ w) (hk : k + w < L) :
    (o2InsideTables esc essib len L).si (k + w) k =
      ((∑ c in Finset.range (w - 1),
        (o2InsideTables esc essib len L).si (k + w) (k + 1 + c) *
          (o2InsideTables esc essib len L).ss (k + 1 + c) k *
          essib (k + w) k (k + 1 + c)) +
        (if k = 0 then 1
          else (o2InsideTables esc essib len L).sc (k + w) (k + w) *
            (o2InsideTables esc essib len L).sc k (k + w - 1))) *
        esc (k + w) k := by
  have h2 : w ≤ L - 1 := by omega
  rw [(o2_tail_eq esc essib len L w hw h2 (k + w) k
    fun w' hw' => by constructor <;> omega).1]
  show o2SiNew esc essib L (o2Prefix esc essib len L w) w (k + w) k = _
  unfold o2SiNew
  rw [writeUp_ne _ _ _ _ fun h => absurd h.1 (by omega),
    writeLo_eq _ _ _ _ rfl (by omega)]
  congr 1
  calc
    ∑ c in Finset.range w, o2IlVal essib (o2Prefix esc essib len L w) w k c
      = ∑ c in Finset.range ((w - 1) + 1),
          o2IlVal essib (o2Prefix esc essib len L w) w k c := by
        rw [show (w - 1) + 1 = w from by omega]
    _ = (∑ c in Finset.range (w - 1),
          o2IlVal essib (o2Prefix esc essib len L w) w k c) +
          o2IlVal essib (o2Prefix esc essib len L w) w k (w - 1) :=
        Finset.sum_range_succ _ _
    _ = _ := by
        congr 1
        · refine Finset.sum_congr rfl fun c hc => ?_
          rw [Finset.mem_range] at hc
          unfold o2IlVal
          rw [if_neg (by omega)]
          simp only [stripeF_dim1, stripeF_dim0, Nat.zero_add]
          rw [(o2_prefix_final esc essib len L w hw h2 (w + k) (1 + k + c)
            fun w' hw' => by constructor <;> omega).1,
            (o2_prefix_final esc essib len L w hw h2 (1 + k + c) k
            fun w' hw' => by constructor <;> omega).2.1,
            Nat.add_comm w k, Nat.add_comm 1 k]
        · unfold o2IlVal
          rw [if_pos rfl]
          by_cases hk0 : k = 0
          · rw [if_pos hk0, if_pos hk0]
          · rw [if_neg hk0, if_neg hk0]
            simp only [stripeF_dim1]
            rw [(o2_prefix_final esc essib len L w hw h2 (w + k) (w + k + 0)
              fun w' hw' => by constructor <;> omega).2.2,
              (o2_prefix_final esc essib len L w hw h2 (0 + k) ((w - 1) + k + 0)
              fun w' hw' => by constructor <;> omega).2.2,
              Nat.add_comm w k, Nat.add_zero, Nat.zero_add,
              show (w - 1) + k + 0 = k + w - 1 from by omega]

/-- Final-table recurrence of the upper incomplete spans of the
second-order pass: the boundary term `C(i, i) + C(j, i+1)` always
contributes, and the inner sibling terms `I(i, r) + S(r, j) + sib(i, j, r)`
contribute only for spans not starting at position 0 (at the root the inner
terms are forced to `-inf`, so only the boundary survives). -/
theorem o2_si_up_eq {R : Type} [CommSemiring R] (esc : ℕ → ℕ → R)
    (essib : ℕ → ℕ → ℕ → R) (len L w k : ℕ) (hw : 1 ≤ w) (hk : k + w < L) :
    (o2InsideTables esc essib len L).si k (k + w) =
      ((o2InsideTables esc essib len L).sc k k *
        (o2InsideTables esc essib len L).sc (k + w) (k + 1) +
        (if k = 0 then 0
          else ∑ c in Finset.range (w - 1),
            (o2InsideTables esc essib len L).si k (k + 1 + c) *
              (o2InsideTables esc essib len L).ss (k + 1 + c) (k + w) *
              essib k (k + w) (k + 1 + c))) *
        esc k (k + w) := by
  have h2 : w ≤ L - 1 := by omega
  rw [(o2_tail_eq esc essib len L w hw h2 k (k + w)
    fun w' hw' => by constructor <;> omega).1]
  show o2SiNew esc essib L (o2Prefix esc essib len L w) w k (k + w) = _
  unfold o2SiNew
  rw [writeUp_eq _ _ _ _ rfl (by omega)]
  congr 1
  calc
    ∑ c in Finset.range w, o2IrVal essib (o2Prefix esc essib len L w) w k c
      = ∑ c in Finset.range ((w - 1) + 1),
          o2IrVal essib (o2Prefix esc essib len L w) w k c := by
        rw [show (w - 1) + 1 = w from by omega]
    _ = (∑ c in Finset.range (w - 1),
          o2IrVal essib (o2Prefix esc essib len L w) w k (c + 1)) +
          o2IrVal essib (o2Prefix esc essib len L w) w k 0 :=
        Finset.sum_range_succ' _ _
    _ = _ := by
        rw [add_comm]
        congr 1
        · unfold o2IrVal
          rw [if_pos rfl]
          simp only [stripeF_dim1]
          rw [(o2_prefix_final esc essib len L w hw h2 (0 + k) (0 + k + 0)
            fun w' hw' => by constructor <;> omega).2.2,
            (o2_prefix_final esc essib len L w hw h2 (w + k) (1 + k + 0)
            fun w' hw' => by constructor <;> omega).2.2,
            Nat.zero_add, Nat.add_zero, Nat.add_comm w k, Nat.add_comm 1 k]
        · by_cases hk0 : k = 0
          · rw [if_pos hk0]
            refine Finset.sum_eq_zero fun c hc => ?_
            unfold o2IrVal
            rw [if_neg (by omega), if_pos hk0]
          · rw [if_neg hk0]
            refine Finset.sum_congr rfl fun c hc => ?_
            rw [Finset.mem_range] at hc
            unfold o2IrVal
            rw [if_neg (by omega), if_neg hk0]
            simp only [stripeF_dim1, stripeF_dim0, Nat.zero_add]
            rw [(o2_prefix_final esc essib len L w hw h2 k (k + (c + 1))
              fun w' hw' => by constructor <;> omega).1,
              (o2_prefix_final esc essib len L w hw h2 (k + (c + 1)) (w + k)
              fun w' hw' => by constructor <;> omega).2.1,
              Nat.add_comm w k,
              show k + (c + 1) = k + 1 + c from by omega]

/-! ## Loop-invariant lemmas: constituency inside pass -/

/-- A width-`w` iteration of the constituency loop only writes chart cells
of the `w`-th upper diagonal. -/
theorem consStep_frame {R : Type} [CommSemiring R] (escC : ℕ → ℕ → R)
    (L : ℕ) (st : ℕ → ℕ → R) (w r c : ℕ) (h2 : c ≠ r + w) :
    consStep escC L st w r c = st r c := by
  unfold consStep
  by_cases hw : w = 1
  · rw [if_pos hw, writeUp_ne _ _ _ _ fun h => h2 (by omega)]
  · rw [if_neg hw, writeUp_ne _ _ _ _ fun h => h2 h.1]

/-- Folding constituency iterations none of which touches `(r, c)` leaves
the cell unchanged. -/
theorem cons_fold_frame {R : Type} [CommSemiring R] (escC : ℕ → ℕ → R)
    (L : ℕ) (r c : ℕ) :
    ∀ (l : List ℕ) (st : ℕ → ℕ → R),
      (∀ w' ∈ l, c ≠ r + w') →
      l.foldl (consStep escC L) st r c = st r c
  | [], _, _ => rfl
  | w' :: tl, st, h => by
      rw [List.foldl_cons]
      have ih := cons_fold_frame escC L r c tl (consStep escC L st w')
        fun x hx => h x (List.mem_cons_of_mem _ hx)
      rw [ih, consStep_frame escC L st w' r c (h w' (List.mem_cons_self _ _))]

/-- The constituency chart just before iteration `w`. -/
def consPrefix {R : Type} [CommSemiring R] (escC : ℕ → ℕ → R) (L w : ℕ) :
    ℕ → ℕ → R :=
  (List.range' 1 (w - 1)).foldl (consStep escC L) fun _ _ => 0

/-- Splitting the constituency loop at iteration `w`. -/
theorem cons_split {R : Type} [CommSemiring R] (escC : ℕ → ℕ → R)
    (L w : ℕ) (h1 : 1 ≤ w) (h2 : w ≤ L - 1) :
    consInsideTable escC L =
      (List.range' (w + 1) (L - 1 - w)).foldl (consStep escC L)
        (consStep escC L (consPrefix escC L w) w) := by
  unfold consInsideTable consPrefix
  rw [range1_split L w h1 h2, List.foldl_append, List.foldl_cons]

/-- Chart cells at distance below `w` hold their final values before
iteration `w`. -/
theorem cons_prefix_final {R : Type} [CommSemiring R] (escC : ℕ → ℕ → R)
    (L w : ℕ) (h1 : 1 ≤ w) (h2 : w ≤ L - 1) (r c : ℕ)
    (h : ∀ w', w ≤ w' → c ≠ r + w') :
    consPrefix escC L w r c = consInsideTable escC L r c := by
  rw [cons_split escC L w h1 h2]
  have htail := cons_fold_frame escC L r c (List.range' (w + 1) (L - 1 - w))
    (consStep escC L (consPrefix escC L w) w)
    fun w' hw' => h w' (by rw [List.mem_range'_1] at hw'; omega)
  rw [htail, consStep_frame escC L _ w r c (h w le_rfl)]

/-- Chart cells untouched after iteration `w` hold, in the final chart,
their values after iteration `w`. -/
theorem cons_tail_eq {R : Type} [CommSemiring R] (escC : ℕ → ℕ → R)
    (L w : ℕ) (h1 : 1 ≤ w) (h2 : w ≤ L - 1) (r c : ℕ)
    (h : ∀ w', w + 1 ≤ w' → c ≠ r + w') :
    consInsideTable escC L r c =
      consStep escC L (consPrefix escC L w) w r c := by
  rw [cons_split escC L w h1 h2]
  exact cons_fold_frame escC L r c _ _
    fun w' hw' => h w' (by rw [List.mem_range'_1] at hw'; omega)

/-- Width-1 base case of the constituency chart: `s[i, i+1] = score(i, i+1)`. -/
theorem cons_base_eq {R : Type} [CommSemiring R] (escC : ℕ → ℕ → R)
    (L k : ℕ) (hk : k + 1 < L) :
    consInsideTable escC L k (k + 1) = escC k (k + 1) := by
  rw [cons_tail_eq escC L 1 le_rfl (by omega) k (k + 1)
    fun w' hw' => by omega]
  unfold consStep
  rw [if_pos rfl, writeUp_eq _ _ _ _ rfl (by omega)]

/-- Width-`w > 1` recurrence of the constituency chart:
`s[i, j] = logsumexp over r strictly inside (i, j) of s[i, r] + s[r, j],
plus score(i, j)`, in exp-space. -/
theorem cons_rec_eq {R : Type} [CommSemiring R] (escC : ℕ → ℕ → R)
    (L w k : ℕ) (hw : 2 ≤ w) (hk : k + w < L) :
    consInsideTable escC L k (k + w) =
      (∑ c in Finset.range (w - 1),
        consInsideTable escC L k (k + 1 + c) *
          consInsideTable escC L (k + 1 + c) (k + w)) * escC k (k + w) := by
  have h1 : 1 ≤ w := by omega
  have h2 : w ≤ L - 1 := by omega
  rw [cons_tail_eq escC L w h1 h2 k (k + w) fun w' hw' => by omega]
  unfold consStep
  rw [if_neg (by omega), writeUp_eq _ _ _ _ rfl (by omega)]
  congr 1
  refine Finset.sum_congr rfl fun c hc => ?_
  rw [Finset.mem_range] at hc
  simp only [stripeF_dim1, stripeF_dim0, Nat.zero_add]
  rw [cons_prefix_final escC L w h1 h2 k (1 + k + c)
    fun w' hw' => by omega,
    cons_prefix_final escC L w h1 h2 (1 + k + c) (w + k)
    fun w' hw' => by omega,
    Nat.add_comm w k, Nat.add_comm 1 k]

/-! ## Helper lemmas for the forward and reduction claims -/

/-- Selecting by a boolean mask over `List.range` and taking the product
agrees with the `Finset` product over the filtered range. -/
theorem listProd_filter_eq {M : Type} [CommMonoid M] (p : ℕ → Bool)
    (f : ℕ → M) : ∀ n : ℕ,
    (((List.range n).filter fun d => p d).map f).prod =
      ∏ d in (Finset.range n).filter fun d => p d = true, f d := by
  intro n
  induction n with
  | zero => simp
  | succ n ih =>
      rw [List.range_succ, List.filter_append, List.map_append,
        List.prod_append, ih, Finset.range_succ, Finset.filter_insert]
      by_cases hp : p n = true
      · rw [if_pos hp, Finset.prod_insert (by simp)]
        simp [hp, mul_comm]
      · rw [if_neg hp]
        simp [hp]

/-! ## Helper lemmas for the stripe storage model -/

/-- Reading the storage appended by a copy. -/
theorem heapGet_append_self (h : List (List ℚ)) (x : List ℚ) :
    (h ++ [x]).getD h.length [] = x := by
  rw [List.getD_eq_getElem?_getD,
    List.getElem?_append_right (Nat.le_refl _), Nat.sub_self]
  rfl

/-- Appending a storage does not change the earlier storages. -/
theorem heapGet_append_lt (h : List (List ℚ)) (x : List ℚ) (i : ℕ)
    (hi : i < h.length) : (h ++ [x]).getD i [] = h.getD i [] := by
  rw [List.getD_eq_getElem?_getD, List.getElem?_append_left hi,
    List.getD_eq_getElem?_getD]

/-- Reading back the storage just replaced in a heap. -/
theorem heapGet_set_self (h : List (List ℚ)) (i : ℕ) (x : List ℚ)
    (hi : i < h.length) : (h.set i x).getD i [] = x := by
  rw [List.getD_eq_getElem?_getD, List.getElem?_set_self hi]
  rfl

/-- Replacing one storage does not change the others. -/
theorem heapGet_set_ne (h : List (List ℚ)) (i j : ℕ) (x : List ℚ)
    (hij : i ≠ j) : (h.set i x).getD j [] = h.getD j [] := by
  rw [List.getD_eq_getElem?_getD, List.getElem?_set_ne hij,
    List.getD_eq_getElem?_getD]

/-- Reading back the position just written in a storage. -/
theorem getD_set_self_q (l : List ℚ) (i : ℕ) (a : ℚ) (hi : i < l.length) :
    (l.set i a).getD i 0 = a := by
  rw [List.getD_eq_getElem?_getD, List.getElem?_set_self hi]
  rfl

/-- Element lookup in a mapped range. -/
theorem getD_range_map (f : ℕ → ℚ) (N pos : ℕ) (hpos : pos < N) :
    ((List.range N).map f).getD pos 0 = f pos := by
  rw [List.getD_eq_getElem?_getD, List.getElem?_map,
    List.getElem?_range hpos]
  rfl

/-- A row-major position is below the total size. -/
theorem pos_bound (n0 n1 m A B t : ℕ) (hA : A < n0) (hB : B < n1)
    (ht : t < m) : (A * n1 + B) * m + t < n0 * n1 * m := by
  have h2 : (A + 1) * n1 ≤ n0 * n1 := Nat.mul_le_mul_right n1 hA
  have h3 : A * n1 + B + 1 ≤ n0 * n1 := by
    rw [Nat.succ_mul] at h2
    omega
  have h4 : (A * n1 + B + 1) * m ≤ n0 * n1 * m := Nat.mul_le_mul_right m h3
  rw [Nat.succ_mul] at h4
  omega

/-- Decoding a row-major position into its three indices. -/
theorem stripe_decode (n1 m A B t : ℕ) (hB : B < n1) (ht : t < m) :
    ((A * n1 + B) * m + t) / (n1 * m) = A ∧
    ((A * n1 + B) * m + t) / m % n1 = B ∧
    ((A * n1 + B) * m + t) % m = t := by
  have hm : 0 < m := by omega
  have hnm : 0 < n1 * m := Nat.mul_pos (by omega) hm
  have e1 : (A * n1 + B) * m + t = n1 * m * A + (B * m + t) := by ring
  have e2 : (A * n1 + B) * m + t = m * (A * n1 + B) + t := by ring
  have hrem : B * m + t < n1 * m := by
    have h2 : (B + 1) * m ≤ n1 * m := Nat.mul_le_mul_right m hB
    rw [Nat.succ_mul] at h2
    omega
  refine ⟨?_, ?_, ?_⟩
  · rw [e1, Nat.mul_add_div hnm, Nat.div_eq_of_lt hrem, Nat.add_zero]
  · rw [e2, Nat.mul_add_div hm, Nat.div_eq_of_lt ht, Nat.add_zero,
      Nat.add_comm (A * n1) B, Nat.add_mul_mod_self_right,
      Nat.mod_eq_of_lt hB]
  · rw [e2, Nat.mul_add_mod, Nat.mod_eq_of_lt ht]

/-- Reading the row-major copy recovers the logical element. -/
theorem flatten_decode (h : List (List ℚ)) (v : TView) (A B t : ℕ)
    (hA : A < v.n0) (hB : B < v.n1) (ht : t < v.m) :
    (flattenV h v).getD ((A * v.n1 + B) * v.m + t) 0 = readV h v A B t := by
  unfold flattenV
  rw [getD_range_map _ _ _ (pos_bound v.n0 v.n1 v.m A B t hA hB ht)]
  have hd := stripe_decode v.n1 v.m A B t hB ht
  rw [hd.1, hd.2.1, hd.2.2]

/-- `contiguous` of a contiguous view: the identity, no copy. -/
theorem contiguousOp_pos (h : List (List ℚ)) (v : TView)
    (hcg : isContig v = true) : contiguousOp h v = (h, v) := by
  unfold contiguousOp
  rw [if_pos hcg]

/-- `contiguous` of a non-contiguous view: a fresh row-major copy. -/
theorem contiguousOp_neg (h : List (List ℚ)) (v : TView)
    (hcg : isContig v = false) :
    contiguousOp h v = (h ++ [flattenV h v],
      ⟨h.length, 0, v.n1 * v.m, v.m, v.n0, v.n1, v.m⟩) := by
  unfold contiguousOp
  rw [if_neg (by simp [hcg])]

/-- The heap returned by `stripe`. -/
theorem stripeOp_heap (h : List (List ℚ)) (v : TView) (n w o0 o1 dim : ℕ) :
    (stripeOp h v n w o0 o1 dim).1 = (contiguousOp h v).1 := rfl

/-- The view returned by `stripe`. -/
theorem stripeOp_view (h : List (List ℚ)) (v : TView) (n w o0 o1 dim : ℕ) :
    (stripeOp h v n w o0 o1 dim).2 =
      ⟨(contiguousOp h v).2.sid,
        (o0 * (contiguousOp h v).2.n1 + o1) * (contiguousOp h v).2.m,
        ((contiguousOp h v).2.n1 + 1) * (contiguousOp h v).2.m,
        (if dim = 1 then 1 else (contiguousOp h v).2.n1) *
          (contiguousOp h v).2.m,
        n, w, (contiguousOp h v).2.m⟩ := rfl

/-- Element formula of a stripe of a contiguous (offset-0) tensor: pure
stride arithmetic, valid at every index. -/
theorem stripe_read_contig (h : List (List ℚ)) (v : TView)
    (n w o0 o1 dim r c t : ℕ) (hcg : isContig v = true) (hoff : v.off = 0) :
    readV (stripeOp h v n w o0 o1 dim).1 (stripeOp h v n w o0 o1 dim).2 r c t =
      if dim = 1 then readV h v (o0 + r) (o1 + r + c) t
      else readV h v (o0 + r + c) (o1 + r) t := by
  have hs := of_decide_eq_true hcg
  rw [stripeOp_heap, stripeOp_view, contiguousOp_pos h v hcg]
  by_cases hdim : dim = 1
  · rw [if_pos hdim, if_pos hdim]
    unfold readV readStore
    congr 2
    rw [hoff, hs.1, hs.2]
    ring
  · rw [if_neg hdim, if_neg hdim]
    unfold readV readStore
    congr 2
    rw [hoff, hs.1, hs.2]
    ring

/-- Element formula of a stripe of a non-contiguous tensor: the stripe
indexes the row-major copy, which holds the logical elements of the
original, so in bounds the same formula holds. -/
theorem stripe_read_copy (h : List (List ℚ)) (v : TView)
    (n w o0 o1 dim r c t : ℕ) (hcg : isContig v = false) (A B : ℕ)
    (hAB : (if dim = 1 then (o0 + r, o1 + r + c) else (o0 + r + c, o1 + r)) =
      (A, B))
    (hA : A < v.n0) (hB : B < v.n1) (ht : t < v.m) :
    readV (stripeOp h v n w o0 o1 dim).1 (stripeOp h v n w o0 o1 dim).2 r c t =
      readV h v A B t := by
  rw [stripeOp_heap, stripeOp_view, contiguousOp_neg h v hcg]
  by_cases hdim : dim = 1
  · rw [if_pos hdim] at hAB ⊢
    obtain ⟨hA1, hB1⟩ := Prod.mk.injEq .. ▸ hAB
    show readStore (h ++ [flattenV h v]) h.length _ = _
    unfold readStore
    rw [heapGet_append_self]
    have e : (o0 * v.n1 + o1) * v.m + r * ((v.n1 + 1) * v.m) +
        c * (1 * v.m) + t = (A * v.n1 + B) * v.m + t := by
      rw [← hA1, ← hB1]
      ring
    rw [e, flatten_decode h v A B t hA hB ht]
  · rw [if_neg hdim] at hAB ⊢
    obtain ⟨hA1, hB1⟩ := Prod.mk.injEq .. ▸ hAB
    show readStore (h ++ [flattenV h v]) h.length _ = _
    unfold readStore
    rw [heapGet_append_self]
    have e : (o0 * v.n1 + o1) * v.m + r * ((v.n1 + 1) * v.m) +
        c * (v.n1 * v.m) + t = (A * v.n1 + B) * v.m + t := by
      rw [← hA1, ← hB1]
      ring
    rw [e, flatten_decode h v A B t hA hB ht]

/-- Writing through a stripe of a contiguous tensor mutates the original
tensor at the corresponding logical element. -/
theorem stripe_write_contig (h : List (List ℚ)) (v : TView)
    (n w o0 o1 dim r c t : ℕ) (val : ℚ) (hcg : isContig v = true)
    (hoff : v.off = 0) (hsid : v.sid < h.length)
    (hstore : (h.getD v.sid []).length = v.n0 * v.n1 * v.m) (A B : ℕ)
    (hAB : (if dim = 1 then (o0 + r, o1 + r + c) else (o0 + r + c, o1 + r)) =
      (A, B))
    (hA : A < v.n0) (hB : B < v.n1) (ht : t < v.m) :
    readV (writeV (stripeOp h v n w o0 o1 dim).1
      (stripeOp h v n w o0 o1 dim).2 r c t val) v A B t = val := by
  have hs := of_decide_eq_true hcg
  have hbnd : v.off + A * v.s0 + B * v.s1 + t < (h.getD v.sid []).length := by
    rw [hstore, hoff, hs.1, hs.2]
    have e2 : 0 + A * (v.n1 * v.m) + B * v.m + t =
        (A * v.n1 + B) * v.m + t := by ring
    rw [e2]
    exact pos_bound v.n0 v.n1 v.m A B t hA hB ht
  rw [stripeOp_heap, stripeOp_view, contiguousOp_pos h v hcg]
  by_cases hdim : dim = 1
  · rw [if_pos hdim] at hAB ⊢
    obtain ⟨hA1, hB1⟩ := Prod.mk.injEq .. ▸ hAB
    unfold writeV readV readStore
    have epos : (o0 * v.n1 + o1) * v.m + r * ((v.n1 + 1) * v.m) +
        c * (1 * v.m) + t = v.off + A * v.s0 + B * v.s1 + t := by
      rw [hoff, hs.1, hs.2, ← hA1, ← hB1]
      ring
    rw [epos, heapGet_set_self h v.sid _ hsid]
    exact getD_set_self_q _ _ _ hbnd
  · rw [if_neg hdim] at hAB ⊢
    obtain ⟨hA1, hB1⟩ := Prod.mk.injEq .. ▸ hAB
    unfold writeV readV readStore
    have epos : (o0 * v.n1 + o1) * v.m + r * ((v.n1 + 1) * v.m) +
        c * (v.n1 * v.m) + t = v.off + A * v.s0 + B * v.s1 + t := by
      rw [hoff, hs.1, hs.2, ← hA1, ← hB1]
      ring
    rw [epos, heapGet_set_self h v.sid _ hsid]
    exact getD_set_self_q _ _ _ hbnd

/-- Writing through a stripe of a non-contiguous tensor goes to the fresh
copy: every element of the original tensor is unchanged. -/
theorem stripe_write_copy_frame (h : List (List ℚ)) (v : TView)
    (n w o0 o1 dim r c t : ℕ) (val : ℚ) (hcg : isContig v = false)
    (hsid : v.sid < h.length) (i j t' : ℕ) :
    readV (writeV (stripeOp h v n w o0 o1 dim).1
      (stripeOp h v n w o0 o1 dim).2 r c t val) v i j t' =
      readV h v i j t' := by
  rw [stripeOp_heap, stripeOp_view, contiguousOp_neg h v hcg]
  show readStore ((h ++ [flattenV h v]).set h.length _) v.sid _ = _
  unfold readStore
  rw [heapGet_set_ne _ _ _ _ (show h.length ≠ v.sid by omega),
    heapGet_append_lt h _ v.sid hsid]
  rfl

/-- The running maximum of an all-`-inf` row is `-inf`. -/
theorem flMax_replicate_ninf (n : ℕ) :
    (List.replicate n Fl.ninf).foldr flMax2 Fl.ninf = Fl.ninf := by
  induction n with
  | zero => rfl
  | succ n ih => rw [List.replicate_succ, List.foldr_cons, ih]; rfl

/-- Any gradient times NaN is NaN (also a zero gradient: `0 * NaN = NaN`
in floats, which is why the hook is needed). -/
theorem flMul_nan (g : Fl) : flMul g Fl.nan = Fl.nan := by
  cases g <;> rfl

/-! ## Claim theorems -/

/-- Claim C1 (amended): in the final first-order tables, the boundary
`C(i, i) = 0` (exp-space 1) holds before the loop runs, every incomplete
entry equals the log-sum-exp over splits `r` in `[i, j)` of
`C(i, r) + C(j, r+1)` plus the arc score, and every lower complete entry
equals the log-sum-exp of `C(r, i) + I(j, r)`; the upper complete entries
equal the log-sum-exp over `r` in `(i, j]` of `I(i, r) + C(r, j)` except
the root cells `(0, w)` with `w` different from the sentence length, which
the loop forces to `-inf` (0).  All in exp-space over `ℚ`. -/
theorem c1_first_order_recurrences (esc : ℕ → ℕ → ℚ) (mask : ℕ → Bool)
    (L w k : ℕ) (hw : 1 ≤ w) (hk : k + w < L) :
    (∀ i : ℕ, (depInit ℚ).sc i i = 1) ∧
    (depInsideM esc mask none L).si (k + w) k =
      (∑ c in Finset.range w,
        (depInsideM esc mask none L).sc k (k + c) *
          (depInsideM esc mask none L).sc (k + w) (k + 1 + c)) *
        esc (k + w) k ∧
    (depInsideM esc mask none L).si k (k + w) =
      (∑ c in Finset.range w,
        (depInsideM esc mask none L).sc k (k + c) *
          (depInsideM esc mask none L).sc (k + w) (k + 1 + c)) *
        esc k (k + w) ∧
    (depInsideM esc mask none L).sc (k + w) k =
      (∑ c in Finset.range w,
        (depInsideM esc mask none L).sc (k + c) k *
          (depInsideM esc mask none L).si (k + w) (k + c)) ∧
    (depInsideM esc mask none L).sc k (k + w) =
      (if k = 0 ∧ maskLen mask L ≠ w then 0
        else
          ∑ c in Finset.range w,
            (depInsideM esc mask none L).si k (k + 1 + c) *
              (depInsideM esc mask none L).sc (k + 1 + c) (k + w)) :=
  ⟨fun i => by simp [depInit],
    dep_si_lo_eq esc (maskLen mask L) L w k hw hk,
    dep_si_up_eq esc (maskLen mask L) L w k hw hk,
    dep_sc_lo_eq esc (maskLen mask L) L w k hw hk,
    dep_sc_up_eq esc (maskLen mask L) L w k hw hk⟩

/-- Claim C1, witness: the amended recurrences at all-one scores, a 2-word
sentence, width 1, span `(1, 2)`. -/
theorem c1_first_order_recurrences_witness :
    (∀ i : ℕ, (depInit ℚ).sc i i = 1) ∧
    (depInsideM unitScore maskTwo none 3).si (1 + 1) 1 =
      (∑ c in Finset.range 1,
        (depInsideM unitScore maskTwo none 3).sc 1 (1 + c) *
          (depInsideM unitScore maskTwo none 3).sc (1 + 1) (1 + 1 + c)) *
        unitScore (1 + 1) 1 ∧
    (depInsideM unitScore maskTwo none 3).si 1 (1 + 1) =
      (∑ c in Finset.range 1,
        (depInsideM unitScore maskTwo none 3).sc 1 (1 + c) *
          (depInsideM unitScore maskTwo none 3).sc (1 + 1) (1 + 1 + c)) *
        unitScore 1 (1 + 1) ∧
    (depInsideM unitScore maskTwo none 3).sc (1 + 1) 1 =
      (∑ c in Finset.range 1,
        (depInsideM unitScore maskTwo none 3).sc (1 + c) 1 *
          (depInsideM unitScore maskTwo none 3).si (1 + 1) (1 + c)) ∧
    (depInsideM unitScore maskTwo none 3).sc 1 (1 + 1) =
      (if (1 : ℕ) = 0 ∧ maskLen maskTwo 3 ≠ 1 then 0
        else
          ∑ c in Finset.range 1,
            (depInsideM unitScore maskTwo none 3).si 1 (1 + 1 + c) *
              (depInsideM unitScore maskTwo none 3).sc (1 + 1 + c) (1 + 1)) :=
  c1_first_order_recurrences unitScore maskTwo 3 1 1 (by decide) (by decide)

/-- Claim C1, counterexample: for a 2-word sentence with all-one (exp-space)
scores the root cell `s_c[0, 1]` is `-inf` (0), not the value
`logsumexp over r in (0, 1] of I(0, r) + C(r, 1)` (exp-space 1) that the
unqualified complete-span equation of the claim demands. -/
theorem c1_counterexample :
    ¬ ((depInsideM unitScore maskTwo none 3).sc 0 1 =
      ∑ c in Finset.range 1,
        (depInsideM unitScore maskTwo none 3).si 0 (1 + c) *
          (depInsideM unitScore maskTwo none 3).sc (1 + c) 1) := by
  decide

/-- Claim C5: after the recurrence of either dependency CRF, for a sentence
of length greater than 1, every root complete-span cell `s_c[0, w]` with
`1 ≤ w ≤ seqLen - 1` and `w` different from the sentence length is `-inf`
(0 in exp-space). -/
theorem c5_root_exclusivity (esc : ℕ → ℕ → ℚ) (essib : ℕ → ℕ → ℕ → ℚ)
    (mask : ℕ → Bool) (L w : ℕ) (hL : 1 < maskLen mask L) (hw1 : 1 ≤ w)
    (hw2 : w ≤ L - 1) (hne : w ≠ maskLen mask L) :
    (depInsideM esc mask none L).sc 0 w = 0 ∧
      (o2InsideM esc essib mask none L).sc 0 w = 0 :=
  ⟨dep_sc_root esc (maskLen mask L) L w hw1 hw2 (fun h => hne h.symm),
    o2_sc_root esc essib (maskLen mask L) L w hw1 hw2 (fun h => hne h.symm)⟩

/-- Claim C5, witness: a 3-word sentence, table width 4, `w = 2 ≠ 3`. -/
theorem c5_root_exclusivity_witness :
    (depInsideM unitScore maskThree none 4).sc 0 2 = 0 ∧
      (o2InsideM unitScore unitSib maskThree none 4).sc 0 2 = 0 :=
  c5_root_exclusivity unitScore unitSib maskThree 4 2 (by decide) (by decide)
    (by decide) (by decide)

/-- Claim C8 (amended): in the final second-order tables, `I(j, i)` is the
log-sum-exp of the inner sibling terms `I(j, r) + S(r, i) + sib(j, r, i)`
for `r` strictly between `i` and `j` together with the first-child boundary
term, plus the arc score; the boundary term is `C(j, j) + C(i, j-1)` for
spans starting at `i > 0` and the empty-span identity (log-space 0,
exp-space 1) for spans starting at position 0.  Symmetrically, `I(i, j)`
always receives the boundary term `C(i, i) + C(j, i+1)`, and receives the
inner sibling terms only for `i > 0`: at position 0 the inner terms are
forced to `-inf`, so the root receives exactly one dependent. -/
theorem c8_second_order_incomplete (esc : ℕ → ℕ → ℚ)
    (essib : ℕ → ℕ → ℕ → ℚ) (mask : ℕ → Bool) (L w k : ℕ)
    (hw : 1 ≤ w) (hk : k + w < L) :
    (o2InsideM esc essib mask none L).si (k + w) k =
      ((∑ c in Finset.range (w - 1),
        (o2InsideM esc essib mask none L).si (k + w) (k + 1 + c) *
          (o2InsideM esc essib mask none L).ss (k + 1 + c) k *
          essib (k + w) k (k + 1 + c)) +
        (if k = 0 then 1
          else (o2InsideM esc essib mask none L).sc (k + w) (k + w) *
            (o2InsideM esc essib mask none L).sc k (k + w - 1))) *
        esc (k + w) k ∧
    (o2InsideM esc essib mask none L).si k (k + w) =
      ((o2InsideM esc essib mask none L).sc k k *
        (o2InsideM esc essib mask none L).sc (k + w) (k + 1) +
        (if k = 0 then 0
          else ∑ c in Finset.range (w - 1),
            (o2InsideM esc essib mask none L).si k (k + 1 + c) *
              (o2InsideM esc essib mask none L).ss (k + 1 + c) (k + w) *
              essib k (k + w) (k + 1 + c))) *
        esc k (k + w) :=
  ⟨o2_si_lo_eq esc essib (maskLen mask L) L w k hw hk,
    o2_si_up_eq esc essib (maskLen mask L) L w k hw hk⟩

/-- Claim C8, witness: the amended second-order incomplete recurrences at
all-one scores, a 2-word sentence, span `(0, 2)`. -/
theorem c8_second_order_incomplete_witness :
    (o2InsideM unitScore unitSib maskTwo none 3).si (0 + 2) 0 =
      ((∑ c in Finset.range (2 - 1),
        (o2InsideM unitScore unitSib maskTwo none 3).si (0 + 2) (0 + 1 + c) *
          (o2InsideM unitScore unitSib maskTwo none 3).ss (0 + 1 + c) 0 *
          unitSib (0 + 2) 0 (0 + 1 + c)) +
        (if (0 : ℕ) = 0 then 1
          else (o2InsideM unitScore unitSib maskTwo none 3).sc (0 + 2) (0 + 2) *
            (o2InsideM unitScore unitSib maskTwo none 3).sc 0 (0 + 2 - 1))) *
        unitScore (0 + 2) 0 ∧
    (o2InsideM unitScore unitSib maskTwo none 3).si 0 (0 + 2) =
      ((o2InsideM unitScore unitSib maskTwo none 3).sc 0 0 *
        (o2InsideM unitScore unitSib maskTwo none 3).sc (0 + 2) (0 + 1) +
        (if (0 : ℕ) = 0 then 0
          else ∑ c in Finset.range (2 - 1),
            (o2InsideM unitScore unitSib maskTwo none 3).si 0 (0 + 1 + c) *
              (o2InsideM unitScore unitSib maskTwo none 3).ss (0 + 1 + c) (0 + 2) *
              unitSib 0 (0 + 2) (0 + 1 + c))) *
        unitScore 0 (0 + 2) :=
  c8_second_order_incomplete unitScore unitSib maskTwo 3 2 0 (by decide)
    (by decide)

/-- Claim C8, counterexample: at span `(0, 2)` of a 2-word sentence with
all-one scores the lower incomplete cell holds 2 (exp-space), while the
formula of the claim, whose boundary term at position 0 is
`C(j, j) + C(i, j-1)` rather than the empty-span zero, yields 1. -/
theorem c8_counterexample :
    (o2InsideM unitScore unitSib maskTwo none 3).si 2 0 = 2 ∧
    ((∑ c in Finset.range 1,
      (o2InsideM unitScore unitSib maskTwo none 3).si 2 (1 + c) *
        (o2InsideM unitScore unitSib maskTwo none 3).ss (1 + c) 0 *
        unitSib 2 0 (1 + c)) +
      (o2InsideM unitScore unitSib maskTwo none 3).sc 2 2 *
        (o2InsideM unitScore unitSib maskTwo none 3).sc 0 1) *
      unitScore 2 0 = 1 ∧
    (2 : ℚ) ≠ 1 := by
  refine ⟨by decide, by decide, by decide⟩

/-- Claim C9 (amended): for one sentence of 3 words with all-zero log
scores (all-one exp-space weights), there are exactly 7 valid single-root
projective trees, the partition value `exp logZ` is 7 (so
`logZ = log 7`), and the marginal of every arc over the words equals the
number of valid trees containing that arc divided by 7. -/
theorem c9_three_word_example :
    tree3Count = 7 ∧
    (depInsideM unitScore maskThree none 4).sc 0 3 = 7 ∧
    (∀ hd, hd < 4 → ∀ d, 1 ≤ d → d < 4 →
      margDep unitScore maskThree 4 hd d = (arc3Count hd d : ℚ) / 7) := by
  refine ⟨by decide, by decide, ?_⟩
  decide

/-- Claim C9, counterexample: the tree count is not 3, `exp logZ` is not 3
(so `logZ` is not `log 3`), and the marginal of the arc from the root to
word 2 is not 1/3. -/
theorem c9_counterexample :
    tree3Count ≠ 3 ∧
    (depInsideM unitScore maskThree none 4).sc 0 3 ≠ 3 ∧
    margDep unitScore maskThree 4 0 2 ≠ 1 / 3 := by
  refine ⟨by decide, by decide, by decide⟩

/-- Claim C2: for every batch, the loss of `CRFDependency.forward` with a
target and `partial = False` is `(logZ - goldScore) / total` — represented
by its exp-space triple — where `logZ` gathers `s_c[0, length]` per
sentence and sums over the batch, the gold score sums the input score at
the gold parent index over every mask-true position, and `total` is the
number of valid positions; with `partial = True` the gold score is instead
the logZ of a second inside pass restricted to the candidate set. -/
theorem c2_dep_forward_loss (L : ℕ) (batch : List DepSent) :
    depLossParts L batch false =
      ((batch.map fun s =>
        (depInsideM s.esc s.mask none L).sc 0 (sentLen L s)).prod,
       (batch.map fun s =>
        ∏ d in (Finset.range L).filter fun d => s.mask d = true,
          s.esc (Int.toNat (s.tgt d)) d).prod,
       (batch.map fun s => maskLen s.mask L).sum) ∧
    depLossParts L batch true =
      ((batch.map fun s =>
        (depInsideM s.esc s.mask none L).sc 0 (sentLen L s)).prod,
       (batch.map fun s =>
        (depInsideM s.esc s.mask (some s.tgt) L).sc 0 (sentLen L s)).prod,
       (batch.map fun s => maskLen s.mask L).sum) := by
  constructor
  · simp only [depLossParts, depLogZExp, depGoldFullExp, depTotal,
      listProd_filter_eq, sentLen]
    rfl
  · rfl

/-- Claim C3 (amended): `CRFDependency.forward` has the claimed signature
`(scores, mask, target = None, marginal flag = False, partial = False)`;
`CRF2oDependency.forward` accepts the same parameters but its marginal flag
defaults to `True`, not `False`; `CRFConstituency.forward` accepts no
partial flag at all.  For every input, each of the three returns the
probabilities alone (raw scores, or the logZ gradient when the marginal
flag is set) when the target is absent, and the pair
(loss, probabilities) when the target is present. -/
theorem c3_forward_interface :
    depForwardParams = ["scores", "mask", "target", "mbr", "partial"] ∧
    o2ForwardParams = ["scores", "mask", "target", "mbr", "partial"] ∧
    consForwardParams = ["scores", "mask", "target", "mbr"] ∧
    depMbrDefault = false ∧ o2MbrDefault = true ∧ consMbrDefault = false ∧
    "partial" ∈ depForwardParams ∧ "partial" ∈ o2ForwardParams ∧
    "partial" ∉ consForwardParams ∧
    (∀ L batch mbr r, depForward L batch false mbr r =
      Sum.inl (depProbs L batch mbr)) ∧
    (∀ L batch mbr r, depForward L batch true mbr r =
      Sum.inr (depLossParts L batch r, depProbs L batch mbr)) ∧
    (∀ L batch mbr r, o2Forward L batch false mbr r =
      Sum.inl (o2Probs L batch mbr)) ∧
    (∀ L batch mbr r, o2Forward L batch true mbr r =
      Sum.inr (o2LossParts L batch r, o2Probs L batch mbr)) ∧
    (∀ L batch mbr, consForward L batch false mbr =
      Sum.inl (consProbs L batch mbr)) ∧
    (∀ L batch mbr, consForward L batch true mbr =
      Sum.inr (consLossParts L batch, consProbs L batch mbr)) :=
  ⟨rfl, rfl, rfl, rfl, rfl, rfl, by decide, by decide, by decide,
    fun _ _ _ _ => rfl, fun _ _ _ _ => rfl, fun _ _ _ _ => rfl,
    fun _ _ _ _ => rfl, fun _ _ _ => rfl, fun _ _ _ => rfl⟩

/-- Claim C3, counterexample: the marginal flag of `CRF2oDependency.forward`
defaults to `True`, and the parameter list of `CRFConstituency.forward`
has no `partial` entry, contradicting the claimed uniform signature. -/
theorem c3_counterexample :
    ¬ (o2MbrDefault = false ∧ "partial" ∈ consForwardParams) := by
  decide

/-- Claim C6: the `logsumexp` of an all-`-inf` row is `-inf` (the forward
map is total: no exception), the float backward map turns every entry of
such a row into NaN (even under a zero incoming gradient, since
`0 * NaN = NaN`), the registered hook rewrites exactly those NaN entries to
zero, and a hook is registered at every differentiable reduction of all
three components (`ilr`, `cl`, `cr`; `il`, `ir`, `slr`, `cl`, `cr`;
`s_s`). -/
theorem c6_lse_reductions (e l : ℚ → ℚ) (g : Fl) (n : ℕ) :
    lseFwd e l (List.replicate (n + 1) Fl.ninf) = Fl.ninf ∧
    lseBwd e l g (List.replicate (n + 1) Fl.ninf) =
      List.replicate (n + 1) Fl.nan ∧
    scrubHook (lseBwd e l g (List.replicate (n + 1) Fl.ninf)) =
      List.replicate (n + 1) (Fl.fin 0) ∧
    (depInsideHooked ++ o2InsideHooked ++ consInsideHooked).all
      (fun b => b) = true := by
  have hfwd : lseFwd e l (List.replicate (n + 1) Fl.ninf) = Fl.ninf := by
    unfold lseFwd
    rw [flMax_replicate_ninf]
  have hbwd : lseBwd e l g (List.replicate (n + 1) Fl.ninf) =
      List.replicate (n + 1) Fl.nan := by
    unfold lseBwd
    rw [List.map_replicate, hfwd]
    have hred : flMul g (flExp e (flSub Fl.ninf Fl.ninf)) = Fl.nan :=
      flMul_nan g
    rw [hred]
  refine ⟨hfwd, hbwd, ?_, by decide⟩
  rw [hbwd]
  unfold scrubHook
  rw [List.map_replicate, if_pos rfl]

/-- Claim C7: the constituency chart has base case
`s[i, i+1] = score(i, i+1)`, recurrence
`s[i, j] = logsumexp over r strictly inside (i, j) of s[i, r] + s[r, j],
plus score(i, j)` for widths above 1, and the forward logZ gathers
`s[0, length]` per sentence — the length being the count of the first mask
row — and sums (multiplies, in exp-space) over the batch. -/
theorem c7_cons_inside (escC : ℕ → ℕ → ℚ) (L w k : ℕ)
    (batch : List ConsSent) (hbase : k + 1 < L) (hw : 2 ≤ w)
    (hk : k + w < L) :
    consInsideTable escC L k (k + 1) = escC k (k + 1) ∧
    consInsideTable escC L k (k + w) =
      (∑ c in Finset.range (w - 1),
        consInsideTable escC L k (k + 1 + c) *
          consInsideTable escC L (k + 1 + c) (k + w)) * escC k (k + w) ∧
    consLogZExp L batch =
      (batch.map fun s =>
        consInsideTable s.esc L 0
          (((List.range L).filter fun j => s.mask 0 j).length)).prod :=
  ⟨cons_base_eq escC L k hbase, cons_rec_eq escC L w k hw hk, rfl⟩

/-- Claim C4 (amended): `stripe(x, n, w, (o0, o1), dim)` has shape
`(n, w, ...)` and, for in-bounds indices of an offset-0 tensor, its element
`(r, c)` is `x[o0+r, o1+r+c]` when `dim = 1` and `x[o0+r+c, o1+r]` when
`dim = 0`; a write through the returned stripe reaches the corresponding
element of `x` when `x` is contiguous (`contiguous()` returns `x` itself);
for a non-contiguous `x` the stripe addresses a copy, so the original
aliasing sentence of the claim holds only under the contiguity
precondition. -/
theorem c4_stripe_spec (h : List (List ℚ)) (v : TView)
    (n w o0 o1 r c t : ℕ) (val : ℚ) (hoff : v.off = 0)
    (hsid : v.sid < h.length)
    (hstore : (h.getD v.sid []).length = v.n0 * v.n1 * v.m) :
    ((stripeOp h v n w o0 o1 1).2.n0 = n ∧
      (stripeOp h v n w o0 o1 1).2.n1 = w) ∧
    (o0 + r < v.n0 → o1 + r + c < v.n1 → t < v.m →
      readV (stripeOp h v n w o0 o1 1).1 (stripeOp h v n w o0 o1 1).2 r c t =
        readV h v (o0 + r) (o1 + r + c) t) ∧
    (o0 + r + c < v.n0 → o1 + r < v.n1 → t < v.m →
      readV (stripeOp h v n w o0 o1 0).1 (stripeOp h v n w o0 o1 0).2 r c t =
        readV h v (o0 + r + c) (o1 + r) t) ∧
    (isContig v = true → o0 + r < v.n0 → o1 + r + c < v.n1 → t < v.m →
      readV (writeV (stripeOp h v n w o0 o1 1).1
        (stripeOp h v n w o0 o1 1).2 r c t val) v (o0 + r) (o1 + r + c) t =
        val) ∧
    (isContig v = true → o0 + r + c < v.n0 → o1 + r < v.n1 → t < v.m →
      readV (writeV (stripeOp h v n w o0 o1 0).1
        (stripeOp h v n w o0 o1 0).2 r c t val) v (o0 + r + c) (o1 + r) t =
        val) := by
  refine ⟨⟨rfl, rfl⟩, ?_, ?_, ?_, ?_⟩
  · intro hA hB ht
    by_cases hcg : isContig v = true
    · rw [stripe_read_contig h v n w o0 o1 1 r c t hcg hoff, if_pos rfl]
    · rw [Bool.not_eq_true] at hcg
      exact stripe_read_copy h v n w o0 o1 1 r c t hcg (o0 + r)
        (o1 + r + c) (by simp) hA hB ht
  · intro hA hB ht
    by_cases hcg : isContig v = true
    · rw [stripe_read_contig h v n w o0 o1 0 r c t hcg hoff, if_neg (by omega)]
    · rw [Bool.not_eq_true] at hcg
      exact stripe_read_copy h v n w o0 o1 0 r c t hcg (o0 + r + c)
        (o1 + r) (by simp) hA hB ht
  · intro hcg hA hB ht
    exact stripe_write_contig h v n w o0 o1 1 r c t val hcg hoff hsid
      hstore (o0 + r) (o1 + r + c) (by simp) hA hB ht
  · intro hcg hA hB ht
    exact stripe_write_contig h v n w o0 o1 0 r c t val hcg hoff hsid
      hstore (o0 + r + c) (o1 + r) (by simp) hA hB ht

/-- Claim C4, witness: a contiguous 2 x 2 tensor, the one-row one-column
stripe at offset `(0, 0)`, element `(0, 1)`, written value 99. -/
theorem c4_stripe_spec_witness :
    ((stripeOp ncHeap cgView 2 2 0 0 1).2.n0 = 2 ∧
      (stripeOp ncHeap cgView 2 2 0 0 1).2.n1 = 2) ∧
    (0 + 0 < cgView.n0 → 0 + 0 + 1 < cgView.n1 → 0 < cgView.m →
      readV (stripeOp ncHeap cgView 2 2 0 0 1).1
        (stripeOp ncHeap cgView 2 2 0 0 1).2 0 1 0 =
        readV ncHeap cgView (0 + 0) (0 + 0 + 1) 0) ∧
    (0 + 0 + 1 < cgView.n0 → 0 + 0 < cgView.n1 → 0 < cgView.m →
      readV (stripeOp ncHeap cgView 2 2 0 0 0).1
        (stripeOp ncHeap cgView 2 2 0 0 0).2 0 1 0 =
        readV ncHeap cgView (0 + 0 + 1) (0 + 0) 0) ∧
    (isContig cgView = true → 0 + 0 < cgView.n0 → 0 + 0 + 1 < cgView.n1 →
      0 < cgView.m →
      readV (writeV (stripeOp ncHeap cgView 2 2 0 0 1).1
        (stripeOp ncHeap cgView 2 2 0 0 1).2 0 1 0 99) cgView (0 + 0)
        (0 + 0 + 1) 0 = 99) ∧
    (isContig cgView = true → 0 + 0 + 1 < cgView.n0 → 0 + 0 < cgView.n1 →
      0 < cgView.m →
      readV (writeV (stripeOp ncHeap cgView 2 2 0 0 0).1
        (stripeOp ncHeap cgView 2 2 0 0 0).2 0 1 0 99) cgView (0 + 0 + 1)
        (0 + 0) 0 = 99) :=
  c4_stripe_spec ncHeap cgView 2 2 0 0 0 1 0 99 (by decide) (by decide)
    (by decide)

/-- Claim C4, counterexample: writing 99 through a stripe of a
non-contiguous (transposed) tensor leaves the original tensor unchanged —
its element still reads 0, not 99 — refuting the unconditional
no-copy/aliasing sentence of the claim. -/
theorem c4_counterexample :
    isContig ncView = false ∧
    readV (writeV (stripeOp ncHeap ncView 1 1 0 0 1).1
      (stripeOp ncHeap ncView 1 1 0 0 1).2 0 0 0 99) ncView 0 0 0 = 0 ∧
    (0 : ℚ) ≠ 99 := by
  refine ⟨by decide, by decide, by decide⟩

/-- Claim C10: `stripe` first calls `contiguous()`.  On an already
contiguous tensor this is the identity — the stripe shares the caller's
storage and a write through it mutates the caller's element — while on a
non-contiguous tensor it allocates a copy, the stripe addresses the copy,
and every element of the caller's tensor is left unchanged by any write
through the stripe. -/
theorem c10_stripe_contiguity (h : List (List ℚ)) (v : TView)
    (n w o0 o1 dim r c t : ℕ) (val : ℚ) (hoff : v.off = 0)
    (hsid : v.sid < h.length)
    (hstore : (h.getD v.sid []).length = v.n0 * v.n1 * v.m) :
    (isContig v = true → (stripeOp h v n w o0 o1 dim).1 = h ∧
      (stripeOp h v n w o0 o1 dim).2.sid = v.sid) ∧
    (isContig v = true → o0 + r < v.n0 → o1 + r + c < v.n1 → t < v.m →
      readV (writeV (stripeOp h v n w o0 o1 1).1
        (stripeOp h v n w o0 o1 1).2 r c t val) v (o0 + r) (o1 + r + c) t =
        val) ∧
    (isContig v = false → (stripeOp h v n w o0 o1 dim).2.sid = h.length ∧
      ∀ i j t', readV (writeV (stripeOp h v n w o0 o1 dim).1
        (stripeOp h v n w o0 o1 dim).2 r c t val) v i j t' =
        readV h v i j t') := by
  refine ⟨?_, ?_, ?_⟩
  · intro hcg
    constructor
    · rw [stripeOp_heap, contiguousOp_pos h v hcg]
    · rw [stripeOp_view, contiguousOp_pos h v hcg]
  · intro hcg hA hB ht
    exact stripe_write_contig h v n w o0 o1 1 r c t val hcg hoff hsid
      hstore (o0 + r) (o1 + r + c) (by simp) hA hB ht
  · intro hcg
    constructor
    · rw [stripeOp_view, contiguousOp_neg h v hcg]
    · exact fun i j t' =>
        stripe_write_copy_frame h v n w o0 o1 dim r c t val hcg hsid i j t'

/-- Claim C10, witness: the non-contiguous transposed 2 x 2 tensor — the
stripe addresses the fresh copy and a write of 99 through it leaves every
element of the original unchanged. -/
theorem c10_stripe_contiguity_witness :
    (isContig ncView = true → (stripeOp ncHeap ncView 1 1 0 0 1).1 = ncHeap ∧
      (stripeOp ncHeap ncView 1 1 0 0 1).2.sid = ncView.sid) ∧
    (isContig ncView = true → 0 + 0 < ncView.n0 → 0 + 0 + 0 < ncView.n1 →
      0 < ncView.m →
      readV (writeV (stripeOp ncHeap ncView 1 1 0 0 1).1
        (stripeOp ncHeap ncView 1 1 0 0 1).2 0 0 0 99) ncView (0 + 0)
        (0 + 0 + 0) 0 = 99) ∧
    (isContig ncView = false →
      (stripeOp ncHeap ncView 1 1 0 0 1).2.sid = ncHeap.length ∧
      ∀ i j t', readV (writeV (stripeOp ncHeap ncView 1 1 0 0 1).1
        (stripeOp ncHeap ncView 1 1 0 0 1).2 0 0 0 99) ncView i j t' =
        readV ncHeap ncView i j t') :=
  c10_stripe_contiguity ncHeap ncView 1 1 0 0 1 0 0 0 99 (by decide)
    (by decide) (by decide)

/-- Claim C7, witness: the chart equations at all-one scores over 4
positions, base span `(1, 2)`, recurrence span `(1, 3)`, and the logZ of a
singleton batch. -/
theorem c7_cons_inside_witness :
    consInsideTable unitScore 4 1 (1 + 1) = unitScore 1 (1 + 1) ∧
    consInsideTable unitScore 4 1 (1 + 2) =
      (∑ c in Finset.range (2 - 1),
        consInsideTable unitScore 4 1 (1 + 1 + c) *
          consInsideTable unitScore 4 (1 + 1 + c) (1 + 2)) *
        unitScore 1 (1 + 2) ∧
    consLogZExp 4 [consSentEx] =
      ([consSentEx].map fun s =>
        consInsideTable s.esc 4 0
          (((List.range 4).filter fun j => s.mask 0 j).length)).prod :=
  c7_cons_inside unitScore 4 2 1 [consSentEx] (by decide) (by decide)
    (by decide)

end TreeCRF

